import Mathlib

/-!
# Verification of the ChessBot core (`src/ChessBot/chess.h`)

A shallow embedding of the ChessBot chess engine.  The repository ships the
class declarations in `chess.h`; the bodies of the member functions are not
part of the sources, so every operational definition below is modelled from
the specification's description of the corresponding member (each such
definition says so in its doc comment).  Declaration-level facts (visibility
and `noexcept` specifications) are transcribed directly from `chess.h`.

Machine integers of the C++ code are modelled as `Int`/`Nat`; the `float`
scores of the evaluator are modelled as `Int`, which is exact because every
material weight in the specification is an integer.
-/

set_option maxHeartbeats 4000000
set_option maxRecDepth 100000

namespace ChessBot

/-! ## Piece encoding (transcribed from the `ChessPieces` enum in chess.h) -/

def B_KING : Int := -6
def B_QUEEN : Int := -5
def B_BISHOP : Int := -4
def B_KNIGHT : Int := -3
def B_ROOK : Int := -2
def B_PAWN : Int := -1
def EMPTY : Int := 0
def W_KING : Int := 1
def W_QUEEN : Int := 2
def W_BISHOP : Int := 3
def W_KNIGHT : Int := 4
def W_ROOK : Int := 5
def W_PAWN : Int := 6

/-- `true` = the piece belongs to white (positive encoding). -/
def isWhitePiece (p : Int) : Bool := 0 < p

/-- `true` iff `p` is a piece of the side `s` (`true` = white). -/
def isSide (s : Bool) (p : Int) : Bool := if s then 0 < p else p < 0

/-- Piece kind, 1..6 = king,queen,bishop,knight,rook,pawn; 0 for empty or
out-of-range values.  The enum encodes white kinds as 1..6 and black kinds
as -6..-1, so a black piece's kind is `p + 7`. -/
def pieceKind (p : Int) : Int :=
  if 0 < p ∧ p ≤ 6 then p else if -6 ≤ p ∧ p < 0 then p + 7 else 0

def isKingPiece (p : Int) : Bool := p = W_KING ∨ p = B_KING
def isPawnPiece (p : Int) : Bool := p = W_PAWN ∨ p = B_PAWN
def isRookPiece (p : Int) : Bool := p = W_ROOK ∨ p = B_ROOK

/-! ## Board and coordinates

The board is the 8×8 grid `char board[8][8]` as a list of rows; row 0 is
black's back rank, exactly as in `STARTING_BOARD`.  A square is addressed
as `(x, y)` = (row, column). -/

/-- The board type: the rows of `char board[8][8]`. -/
abbrev Board := List (List Int)

/-- `Chess::WithinBounds`: a coordinate is valid iff it lies in `0..7`. -/
def WithinBounds (c : Int) : Bool := 0 ≤ c ∧ c ≤ 7

/-- Both coordinates of a square are within the 8×8 board. -/
def inB (x y : Int) : Bool := WithinBounds x && WithinBounds y

/-- Read a square of the board (callers guard with `inB` first). -/
def getSq (b : Board) (x y : Int) : Int := (b.getD x.toNat []).getD y.toNat 0

/-- Write a square of the board. -/
def setSq (b : Board) (x y : Int) (p : Int) : Board :=
  b.set x.toNat ((b.getD x.toNat []).set y.toNat p)

/-- `STARTING_BOARD` from chess.h. -/
def STARTING_BOARD : Board :=
  [[B_ROOK, B_KNIGHT, B_BISHOP, B_QUEEN, B_KING, B_BISHOP, B_KNIGHT, B_ROOK],
   [B_PAWN, B_PAWN, B_PAWN, B_PAWN, B_PAWN, B_PAWN, B_PAWN, B_PAWN],
   [EMPTY, EMPTY, EMPTY, EMPTY, EMPTY, EMPTY, EMPTY, EMPTY],
   [EMPTY, EMPTY, EMPTY, EMPTY, EMPTY, EMPTY, EMPTY, EMPTY],
   [EMPTY, EMPTY, EMPTY, EMPTY, EMPTY, EMPTY, EMPTY, EMPTY],
   [EMPTY, EMPTY, EMPTY, EMPTY, EMPTY, EMPTY, EMPTY, EMPTY],
   [W_PAWN, W_PAWN, W_PAWN, W_PAWN, W_PAWN, W_PAWN, W_PAWN, W_PAWN],
   [W_ROOK, W_KNIGHT, W_BISHOP, W_QUEEN, W_KING, W_BISHOP, W_KNIGHT, W_ROOK]]

/-! ## Move and game-state data -/

/-- A move `(fromX, fromY, toX, toY)`; the four coordinates that the
fixed-width move-notation string of the C++ code encodes. -/
structure Mv where
  x1 : Int
  y1 : Int
  x2 : Int
  y2 : Int
deriving DecidableEq, Repr

/-- The `Moves` enum from chess.h: the classification of a played move. -/
inductive Moves where
  | NORMAL
  | CASTLING
  | PROMOTION
  | EN_PASSANT
deriving DecidableEq, Repr

/-- The `Endgame` enum from chess.h. -/
inductive Endgame where
  | CHECKMATE
  | FIFTY_MOVES
  | THREEFOLD_REP
  | QUIT
deriving DecidableEq, Repr

/-- The observable state of the `Chess` class: the board, each player's
coarse castling-rights flag (`Player::castling`), the turn flag, the move
record `all_game_moves`, and the half-move clock
`moves_after_last_pawn_move_or_capture`. -/
structure Chess where
  board : Board
  whiteCastling : Bool
  blackCastling : Bool
  whitesTurn : Bool
  allGameMoves : List (Moves × Mv)
  clock : Nat
deriving DecidableEq, Repr

/-- The state right after the `Chess` constructor: starting board, both
castling rights intact, white to move, empty record, clock 0. -/
def initialChess : Chess :=
  { board := STARTING_BOARD
    whiteCastling := true
    blackCastling := true
    whitesTurn := true
    allGameMoves := []
    clock := 0 }

/-- `Chess::ChangeTurn`: flip the turn flag. -/
def ChangeTurn (c : Chess) : Chess := { c with whitesTurn := !c.whitesTurn }

/-- Castling flag of the given side. -/
def castlingOf (c : Chess) (s : Bool) : Bool :=
  if s then c.whiteCastling else c.blackCastling

/-! ## Attack detection

Modelled from the spec: `IsCheck(side)` is "true iff the opponent has at
least one pseudo-legal move landing on `side`'s king square", and castling
requires the king's path squares not to be "attacked by the opponent".
`attacksSq` is the capture pattern of one piece — the landing squares of
its pseudo-legal capturing moves: pawns capture on their two forward
diagonals, and sliding pieces need a clear line. -/

/-- Squares strictly between `(x,y)` and the target along direction
`(dx,dy)` are all empty; `fuel` bounds the walk. -/
def lineClear (b : Board) (x y dx dy tx ty : Int) : Nat → Bool
  | 0 => false
  | fuel + 1 =>
    let nx := x + dx
    let ny := y + dy
    if nx = tx ∧ ny = ty then true
    else if inB nx ny ∧ getSq b nx ny = 0 then lineClear b nx ny dx dy tx ty fuel
    else false

/-- Sign of an integer as a step direction. -/
def stepDir (d : Int) : Int := if 0 < d then 1 else if d < 0 then -1 else 0

def knightOffs : List (Int × Int) :=
  [(1, 2), (2, 1), (2, -1), (1, -2), (-1, -2), (-2, -1), (-2, 1), (-1, 2)]

def kingOffs : List (Int × Int) :=
  [(1, 1), (1, 0), (1, -1), (0, 1), (0, -1), (-1, 1), (-1, 0), (-1, -1)]

/-- Does the piece `p` standing on `(x,y)` attack `(tx,ty)`?  This is the
landing-square test of `p`'s pseudo-legal capturing moves. -/
def attacksSq (b : Board) (p : Int) (x y tx ty : Int) : Bool :=
  let k := pieceKind p
  if k = 6 then
    -- pawn: its two forward-diagonal capture squares
    let d : Int := if isWhitePiece p then -1 else 1
    tx = x + d ∧ (ty = y + 1 ∨ ty = y - 1)
  else if k = 4 then
    -- knight
    knightOffs.any (fun o => tx = x + o.1 ∧ ty = y + o.2)
  else if k = 1 then
    -- king
    kingOffs.any (fun o => tx = x + o.1 ∧ ty = y + o.2)
  else if k = 5 then
    -- rook
    (tx = x ∨ ty = y) ∧ ¬(tx = x ∧ ty = y) ∧
      lineClear b x y (stepDir (tx - x)) (stepDir (ty - y)) tx ty 8
  else if k = 3 then
    -- bishop
    (tx - x = ty - y ∨ tx - x = y - ty) ∧ ¬(tx = x ∧ ty = y) ∧
      lineClear b x y (stepDir (tx - x)) (stepDir (ty - y)) tx ty 8
  else if k = 2 then
    -- queen
    (tx = x ∨ ty = y ∨ tx - x = ty - y ∨ tx - x = y - ty) ∧ ¬(tx = x ∧ ty = y) ∧
      lineClear b x y (stepDir (tx - x)) (stepDir (ty - y)) tx ty 8
  else false

/-- Some piece of side `s` attacks the square `(tx,ty)`: scan the whole
board for an `s`-piece whose capture pattern hits the square. -/
def SquareAttacked (b : Board) (s : Bool) (tx ty : Int) : Bool :=
  b.enum.any (fun xr => xr.2.enum.any (fun yp =>
    isSide s yp.2 && attacksSq b yp.2 (xr.1 : Int) (yp.1 : Int) tx ty))

/-- The square holding the first piece satisfying `f`, scanning row-major. -/
def findPieceSq (b : Board) (f : Int → Bool) : Option (Int × Int) :=
  b.enum.findSome? (fun xr =>
    (xr.2.enum.find? (fun yp => f yp.2)).map (fun yp => ((xr.1 : Int), (yp.1 : Int))))

/-- `Chess::IsCheck(turn)`.  Modelled from the spec: true iff the opponent
has a pseudo-legal move landing on `side`'s king square, i.e. the king's
square is attacked by the opponent (a pseudo-legal move lands on the
occupied king square exactly when it is a capturing move onto it). -/
def IsCheck (c : Chess) (s : Bool) : Bool :=
  match findPieceSq c.board (fun p => p = (if s then W_KING else B_KING)) with
  | none => false
  | some k => SquareAttacked c.board (!s) k.1 k.2

/-! ## Pseudo-legal move generation

Modelled from the spec, §4.1 "Pseudo-legal generation per piece kind".
Every generator takes the side `s` that owns the piece on `(x,y)`. -/

/-- Target squares reachable by sliding from `(x,y)` in direction
`(dx,dy)`: empty squares until the first blocker, including an opponent
blocker, excluding an own blocker.  `fuel` bounds the walk (7 suffices). -/
def raySquares (b : Board) (s : Bool) (x y dx dy : Int) : Nat → List (Int × Int)
  | 0 => []
  | fuel + 1 =>
    let nx := x + dx
    let ny := y + dy
    if inB nx ny then
      let q := getSq b nx ny
      if q = 0 then (nx, ny) :: raySquares b s nx ny dx dy fuel
      else if isSide (!s) q then [(nx, ny)]
      else []
    else []

/-- Moves from `(x,y)` to each of the given target squares. -/
def toMvs (x y : Int) (ts : List (Int × Int)) : List Mv :=
  ts.map (fun t => ⟨x, y, t.1, t.2⟩)

def rookDirs : List (Int × Int) := [(1, 0), (-1, 0), (0, 1), (0, -1)]
def bishopDirs : List (Int × Int) := [(1, 1), (1, -1), (-1, 1), (-1, -1)]

/-- `Chess::RookMoves`. -/
def RookMoves (b : Board) (s : Bool) (x y : Int) : List Mv :=
  toMvs x y (rookDirs.flatMap (fun d => raySquares b s x y d.1 d.2 8))

/-- `Chess::BishopMoves`. -/
def BishopMoves (b : Board) (s : Bool) (x y : Int) : List Mv :=
  toMvs x y (bishopDirs.flatMap (fun d => raySquares b s x y d.1 d.2 8))

/-- `Chess::QueenMoves`. -/
def QueenMoves (b : Board) (s : Bool) (x y : Int) : List Mv :=
  RookMoves b s x y ++ BishopMoves b s x y

/-- `Chess::KnightMoves`: the 8 L-shaped offsets, filtered by bounds and
not landing on an own piece. -/
def KnightMoves (b : Board) (s : Bool) (x y : Int) : List Mv :=
  toMvs x y ((knightOffs.map (fun o => (x + o.1, y + o.2))).filter
    (fun t => inB t.1 t.2 && !isSide s (getSq b t.1 t.2)))

/-- The row a pawn of side `s` starts on (white pawns on row 6). -/
def pawnStartRow (s : Bool) : Int := if s then 6 else 1

/-- The forward direction of a pawn of side `s`. -/
def pawnDir (s : Bool) : Int := if s then -1 else 1

/-- `Chess::GetEnPassant`: if the immediately preceding recorded move was a
two-square pawn advance by the opponent landing on the same rank as, and on
a column adjacent to, the pawn on `(x,y)`, return that column. -/
def GetEnPassant (c : Chess) (s : Bool) (x y : Int) : Option Int :=
  match c.allGameMoves.getLast? with
  | none => none
  | some kl =>
    let lm := kl.2
    if getSq c.board lm.x2 lm.y2 = (if s then B_PAWN else W_PAWN) ∧
        (lm.x2 - lm.x1 = 2 ∨ lm.x1 - lm.x2 = 2) ∧ lm.y1 = lm.y2 ∧
        lm.x2 = x ∧ (lm.y2 = y + 1 ∨ lm.y2 = y - 1) ∧
        inB (x + pawnDir s) lm.y2 ∧ getSq c.board (x + pawnDir s) lm.y2 = 0 then
      some lm.y2
    else none

/-- `Chess::PawnMoves`: forward advance, double advance from the start row,
diagonal captures, and en passant.  Promotion needs no special move shape:
a pawn move landing on the farthest rank is classified as a promotion when
it is applied. -/
def PawnMoves (c : Chess) (s : Bool) (x y : Int) : List Mv :=
  let b := c.board
  let d := pawnDir s
  (if inB (x + d) y ∧ getSq b (x + d) y = 0 then [⟨x, y, x + d, y⟩] else []) ++
  (if x = pawnStartRow s ∧ getSq b (x + d) y = 0 ∧ getSq b (x + 2 * d) y = 0 then
    [⟨x, y, x + 2 * d, y⟩] else []) ++
  (if inB (x + d) (y - 1) ∧ isSide (!s) (getSq b (x + d) (y - 1)) then
    [⟨x, y, x + d, y - 1⟩] else []) ++
  (if inB (x + d) (y + 1) ∧ isSide (!s) (getSq b (x + d) (y + 1)) then
    [⟨x, y, x + d, y + 1⟩] else []) ++
  (match GetEnPassant c s x y with
   | some ec => [⟨x, y, x + d, ec⟩]
   | none => [])

/-- The home row of side `s`'s back rank. -/
def backRow (s : Bool) : Int := if s then 7 else 0

/-- `Chess::KingMoves`: the 8 adjacent squares filtered by bounds and own
occupancy, plus castling.  Castling (spec §4.1): the side's castling-rights
flag is intact, king and rook stand on their home squares, the squares
between them are empty, the king is not in check, and neither the square it
passes through nor the one it lands on is attacked by the opponent. -/
def KingMoves (c : Chess) (s : Bool) (x y : Int) : List Mv :=
  let b := c.board
  let home := backRow s
  let kingHere := x = home ∧ y = 4 ∧ getSq b x y = (if s then W_KING else B_KING)
  let normal := toMvs x y ((kingOffs.map (fun o => (x + o.1, y + o.2))).filter
    (fun t => inB t.1 t.2 && !isSide s (getSq b t.1 t.2)))
  let kingside :=
    if castlingOf c s ∧ kingHere ∧
        getSq b home 7 = (if s then W_ROOK else B_ROOK) ∧
        getSq b home 5 = 0 ∧ getSq b home 6 = 0 ∧
        ¬IsCheck c s ∧
        ¬SquareAttacked b (!s) home 5 ∧ ¬SquareAttacked b (!s) home 6 then
      [⟨x, y, home, 6⟩] else []
  let queenside :=
    if castlingOf c s ∧ kingHere ∧
        getSq b home 0 = (if s then W_ROOK else B_ROOK) ∧
        getSq b home 1 = 0 ∧ getSq b home 2 = 0 ∧ getSq b home 3 = 0 ∧
        ¬IsCheck c s ∧
        ¬SquareAttacked b (!s) home 3 ∧ ¬SquareAttacked b (!s) home 2 then
      [⟨x, y, home, 2⟩] else []
  normal ++ kingside ++ queenside

/-- Pseudo-legal moves of the piece `p` standing on `(x,y)` when it belongs
to side `s` (empty list otherwise). -/
def pieceMoves (c : Chess) (s : Bool) (p : Int) (x y : Int) : List Mv :=
  if isSide s p then
    let k := pieceKind p
    if k = 6 then PawnMoves c s x y
    else if k = 5 then RookMoves c.board s x y
    else if k = 4 then KnightMoves c.board s x y
    else if k = 3 then BishopMoves c.board s x y
    else if k = 2 then QueenMoves c.board s x y
    else if k = 1 then KingMoves c s x y
    else []
  else []

/-- All pseudo-legal moves for side `s`, in row-major square order. -/
def pseudoMoves (c : Chess) (s : Bool) : List Mv :=
  c.board.enum.flatMap (fun xr => xr.2.enum.flatMap (fun yp =>
    pieceMoves c s yp.2 (xr.1 : Int) (yp.1 : Int)))

/-! ## Applying and undoing moves -/

/-- The row on which a pawn of side `s` promotes. -/
def promotionRow (s : Bool) : Int := if s then 0 else 7

/-- Classification of a move from the board state at application time
(spec §6: the move kind is "inferred from board state at application
time").  The moving piece is read from the source square: a king stepping
two columns castles; a pawn reaching the farthest rank promotes; a pawn
moving diagonally onto an empty square captures en passant. -/
def classify (c : Chess) (m : Mv) : Moves :=
  let p := getSq c.board m.x1 m.y1
  if isKingPiece p ∧ (m.y2 - m.y1 = 2 ∨ m.y1 - m.y2 = 2) then .CASTLING
  else if isPawnPiece p ∧ m.x2 = promotionRow (isWhitePiece p) then .PROMOTION
  else if isPawnPiece p ∧ m.y1 ≠ m.y2 ∧ getSq c.board m.x2 m.y2 = 0 then .EN_PASSANT
  else .NORMAL

/-- `Chess::MovePiece(x1, y1, x2, y2, manual_promotion, update_board)`.
Modelled from the spec, §4.2 `ApplyMove`: moves the piece, captures by
overwrite, removes the passed pawn on en passant, relocates the rook for
castling, substitutes the promotion piece (the auto-queen path; the manual
promotion prompt is interactive I/O and outside the core, so the
`manualPromotion` flag is carried but the model always auto-queens),
clears the side's castling-rights flag when its king or rook moves, resets
the half-move clock on a pawn move or capture and increments it otherwise,
and appends the classified move to the record when `updateRecord` is set.
The turn flag is not touched (the Game Controller flips it). -/
def MovePiece (c : Chess) (m : Mv) (manualPromotion updateRecord : Bool) : Chess :=
  let _ := manualPromotion
  let p := getSq c.board m.x1 m.y1
  let q := getSq c.board m.x2 m.y2
  let s := isWhitePiece p
  let kind := classify c m
  let board' :=
    match kind with
    | .NORMAL => setSq (setSq c.board m.x2 m.y2 p) m.x1 m.y1 0
    | .PROMOTION =>
      setSq (setSq c.board m.x2 m.y2 (if s then W_QUEEN else B_QUEEN)) m.x1 m.y1 0
    | .EN_PASSANT =>
      setSq (setSq (setSq c.board m.x2 m.y2 p) m.x1 m.y1 0) m.x1 m.y2 0
    | .CASTLING =>
      let rookFromY : Int := if m.y1 < m.y2 then 7 else 0
      let rookToY : Int := if m.y1 < m.y2 then 5 else 3
      let r := getSq c.board m.x1 rookFromY
      setSq (setSq (setSq (setSq c.board m.x2 m.y2 p) m.x1 m.y1 0)
        m.x1 rookToY r) m.x1 rookFromY 0
  let losesCastling := isKingPiece p ∨ isRookPiece p
  { board := board'
    whiteCastling := if losesCastling ∧ s then false else c.whiteCastling
    blackCastling := if losesCastling ∧ ¬s then false else c.blackCastling
    whitesTurn := c.whitesTurn
    allGameMoves :=
      if updateRecord then c.allGameMoves ++ [(kind, m)] else c.allGameMoves
    clock := if isPawnPiece p ∨ q ≠ 0 then 0 else c.clock + 1 }

/-- The information `MovePieceBack` needs to invert a move: the occupant of
the destination square, the move classification, the half-move clock and
both castling flags as they were before the move was applied. -/
structure UndoInfo where
  captured : Int
  kind : Moves
  clock : Nat
  wc : Bool
  bc : Bool
deriving DecidableEq, Repr

/-- The undo information captured from the state a move is applied to. -/
def undoInfo (c : Chess) (m : Mv) : UndoInfo :=
  { captured := getSq c.board m.x2 m.y2
    kind := classify c m
    clock := c.clock
    wc := c.whiteCastling
    bc := c.blackCastling }

/-- `Chess::MovePieceBack(x1, y1, x2, y2)`.  Modelled from the spec,
§4.2 `UndoMove`: the exact inverse of `ApplyMove` for the four move
classifications — moves the piece back, restores the captured piece (on the
passed square for en passant), restores the rook and king for castling,
demotes a promoted piece back to a pawn, and restores the half-move clock
and the castling-rights flags to their prior values. -/
def MovePieceBack (c : Chess) (m : Mv) (u : UndoInfo) : Chess :=
  let p := getSq c.board m.x2 m.y2
  let board' :=
    match u.kind with
    | .NORMAL => setSq (setSq c.board m.x1 m.y1 p) m.x2 m.y2 u.captured
    | .PROMOTION =>
      setSq (setSq c.board m.x1 m.y1 (if isWhitePiece p then W_PAWN else B_PAWN))
        m.x2 m.y2 u.captured
    | .EN_PASSANT =>
      setSq (setSq (setSq c.board m.x1 m.y1 p) m.x2 m.y2 0)
        m.x1 m.y2 (if isWhitePiece p then B_PAWN else W_PAWN)
    | .CASTLING =>
      let rookFromY : Int := if m.y1 < m.y2 then 7 else 0
      let rookToY : Int := if m.y1 < m.y2 then 5 else 3
      let r := getSq c.board m.x1 rookToY
      setSq (setSq (setSq (setSq c.board m.x1 m.y1 p) m.x2 m.y2 0)
        m.x1 rookFromY r) m.x1 rookToY 0
  { board := board'
    whiteCastling := u.wc
    blackCastling := u.bc
    whitesTurn := c.whitesTurn
    allGameMoves := c.allGameMoves
    clock := u.clock }

/-! ## Legal moves -/

/-- `Chess::IsCheck(move)`: would the given move leave the mover in check?
Modelled from the spec: apply the move to a scratch state and test
`IsCheck` for the moving side. -/
def IsCheckAfter (c : Chess) (m : Mv) : Bool :=
  IsCheck (MovePiece c m false false) c.whitesTurn

/-- `Chess::AllMoves`: every pseudo-legal move of the side to move that
does not leave that side's own king in check. -/
def AllMoves (c : Chess) : List Mv :=
  (pseudoMoves c c.whitesTurn).filter (fun m => !IsCheckAfter c m)

/-! ## Game progression and endgame detection -/

/-- One game ply as driven by the Game Controller (spec §4.4): apply the
move with the record updated, then flip the turn flag. -/
def stepMove (c : Chess) (m : Mv) : Chess := ChangeTurn (MovePiece c m false true)

/-- The game reached by playing the given moves from the initial state. -/
def playGame (ms : List Mv) : Chess := ms.foldl stepMove initialChess

/-- The position component used by the repetition rule: piece placement
plus side to move. -/
def posOf (c : Chess) : Board × Bool := (c.board, c.whitesTurn)

/-- The positions of a game with the given move record, reconstructed by
replaying the record from the starting board: the position before any move
and the position after each recorded ply. -/
def replayPositions (ms : List Mv) : List (Board × Bool) :=
  (List.range (ms.length + 1)).map (fun i => posOf (playGame (ms.take i)))

/-- `Chess::ThreefoldRepetition`.  Modelled from the spec: true iff the
current board configuration — piece placement plus side to move — has
occurred three times, counting over the positions of the game whose move
record `all_game_moves` is (reconstructed by replaying the record, spec §3
"Move record"). -/
def ThreefoldRepetition (c : Chess) : Bool :=
  3 ≤ (replayPositions (c.allGameMoves.map Prod.snd)).count (posOf c)

/-- The endgame conditions that hold in a state, in the order of the
`Endgame` enum.  Modelled from the spec, §4.1 `CheckEndgame`: Checkmate =
the side to move has no legal moves and is in check; fifty-move draw =
half-move clock ≥ 100 plies; threefold repetition.  The checkmate test
runs on the legal move set `AllMoves`. -/
def EndgameReasons (c : Chess) : List Endgame :=
  (if AllMoves c = [] ∧ IsCheck c c.whitesTurn then [.CHECKMATE] else []) ++
  (if 100 ≤ c.clock then [.FIFTY_MOVES] else []) ++
  (if ThreefoldRepetition c then [.THREEFOLD_REP] else [])

/-- `Chess::CheckEndgame`: the first endgame reason that holds, if any. -/
def CheckEndgame (c : Chess) : Option Endgame := (EndgameReasons c).head?

/-! ## Evaluation (spec §4.2 Evaluator)

Float scores are modelled as `Int`: every weight is an integer. -/

/-- The king's "very large sentinel value". -/
def KING_WEIGHT : Int := 1000

/-- `Chess::EvaluatePiece`: fixed material weights (pawn 1, knight and
bishop 3, rook 5, queen 9, king sentinel), signed by color; 0 for an empty
square. -/
def EvaluatePiece (p : Int) : Int :=
  let k := pieceKind p
  let w : Int :=
    if k = 6 then 1
    else if k = 4 ∨ k = 3 then 3
    else if k = 5 then 5
    else if k = 2 then 9
    else if k = 1 then KING_WEIGHT
    else 0
  if isWhitePiece p then w else -w

/-- Material sum of one row. -/
def rowScore (r : List Int) : Int := (r.map EvaluatePiece).sum

/-- `Chess::EvaluateBoard(turn)`: sum of `EvaluatePiece` over every square,
from `side`'s perspective (own pieces positive). -/
def EvaluateBoard (c : Chess) (s : Bool) : Int :=
  (if s then 1 else -1) * (c.board.map rowScore).sum

/-! ## Search (spec §4.3): minimax with alpha-beta pruning

`PathNode::AlphaBeta` explores the game tree by applying each legal move to
the working state, recursing, and undoing the move, so the search is
expressed below in state-passing style: every function returns the score
together with the state it leaves behind. -/

/-- The maximizing side's best-reply fold: seed with the first child value
and take the maximum over the rest. -/
def maxFold (g : Mv → Int) (v : Int) (ms : List Mv) : Int :=
  ms.foldl (fun a m => max a (g m)) v

def minFold (g : Mv → Int) (v : Int) (ms : List Mv) : Int :=
  ms.foldl (fun a m => min a (g m)) v

/-- Exploring a move in the search: apply it to the working state (without
touching the record) and flip the turn. -/
def searchStep (c : Chess) (m : Mv) : Chess := ChangeTurn (MovePiece c m false false)

/-- Full unpruned minimax (the reference the pruned search is compared to):
at depth 0 or in a terminal position (no legal moves) the static
evaluation from the root side's perspective; otherwise the max (resp. min)
over all legal moves of the value of the resulting position, maximizing
exactly when it is the root side's turn. -/
def minimax (rootSide : Bool) : Nat → Chess → Int
  | 0, c => EvaluateBoard c rootSide
  | d + 1, c =>
    match AllMoves c with
    | [] => EvaluateBoard c rootSide
    | m :: rest =>
      let g := fun m' => minimax rootSide d (searchStep c m')
      if c.whitesTurn = rootSide then maxFold g (g m) rest else minFold g (g m) rest

/-- The alpha-beta sibling loop.  `f` is the search applied to a child
state; `v` is the best value among the children explored so far.  Once
`β ≤ α` the remaining siblings are cut off.  Each explored move is applied
with `MovePiece` and reverted with `MovePieceBack` on the working state,
which is threaded through and returned. -/
def abLoop (f : Chess → Int → Int → Int × Chess) (maxi : Bool) :
    Chess → List Mv → Int → Int → Int → Int × Chess
  | c, [], _, _, v => (v, c)
  | c, m :: rest, α, β, v =>
    if β ≤ α then (v, c)
    else
      let u := undoInfo c m
      let w := f (searchStep c m) α β
      let c2 := MovePieceBack (ChangeTurn w.2) m u
      if maxi then abLoop f maxi c2 rest (max α w.1) β (max v w.1)
      else abLoop f maxi c2 rest α (min β w.1) (min v w.1)

/-- `PathNode::AlphaBeta`.  Modelled from the spec §4.3: minimax with
alpha-beta pruning over the legal moves, recursing with depth − 1,
maximizing when it is the root side's turn, updating α/β and pruning the
remaining siblings once α ≥ β.  Terminal positions and depth 0 return the
static evaluation.  The working state is threaded and returned. -/
def AlphaBeta (rootSide : Bool) : Nat → Chess → Int → Int → Int × Chess
  | 0, c, _, _ => (EvaluateBoard c rootSide, c)
  | d + 1, c, α, β =>
    match AllMoves c with
    | [] => (EvaluateBoard c rootSide, c)
    | m :: rest =>
      let u := undoInfo c m
      let w := AlphaBeta rootSide d (searchStep c m) α β
      let c2 := MovePieceBack (ChangeTurn w.2) m u
      if c.whitesTurn = rootSide then
        abLoop (AlphaBeta rootSide d) true c2 rest (max α w.1) β w.1
      else
        abLoop (AlphaBeta rootSide d) false c2 rest α (min β w.1) w.1

/-- A bound strictly larger than the absolute value of any evaluation of
any board of the same shape: stands in for the infinite initial window. -/
def searchBound (c : Chess) : Int :=
  KING_WEIGHT * (8 * (c.board.map List.length).sum + 1) + 1

/-- The root loop of the pruned search: explores each remaining root move
with the current window, keeps the first-seen best move (ties broken by
strict improvement) and the threaded working state. -/
def abRootLoop (rootSide : Bool) (d : Nat) (B : Int) :
    Chess → List Mv → Int → Mv × Int → (Mv × Int) × Chess
  | c, [], _, best => (best, c)
  | c, m :: rest, α, best =>
    let u := undoInfo c m
    let w := AlphaBeta rootSide d (searchStep c m) α B
    let c2 := MovePieceBack (ChangeTurn w.2) m u
    abRootLoop rootSide d B c2 rest (max α w.1)
      (if best.2 < w.1 then (m, w.1) else best)

/-- `PathNode::AlphaBetaRoot`.  Modelled from the spec §4.3: runs the
pruned search below each legal root move of the side to move with a window
wide enough to be infinite, and returns the best root move — ties broken by
move-generation order, first seen wins — together with the working state
left behind by the search. -/
def AlphaBetaRoot (c : Chess) (difficulty : Nat) : Option Mv × Chess :=
  match AllMoves c with
  | [] => (none, c)
  | m :: rest =>
    let d := difficulty - 1
    let B := searchBound c
    let u := undoInfo c m
    let w := AlphaBeta c.whitesTurn d (searchStep c m) (-B) B
    let c2 := MovePieceBack (ChangeTurn w.2) m u
    let r := abRootLoop c.whitesTurn d B c2 rest (max (-B) w.1) (m, w.1)
    (some r.1.1, r.2)

/-- The root move a full unpruned minimax of the same depth would return:
same legal moves, same depth, same first-seen tie-break. -/
def minimaxRootMove (c : Chess) (difficulty : Nat) : Option Mv :=
  match AllMoves c with
  | [] => none
  | m :: rest =>
    let d := difficulty - 1
    let g := fun m' => minimax c.whitesTurn d (searchStep c m')
    some ((rest.foldl (fun best m' => if best.2 < g m' then (m', g m') else best)
      (m, g m)).1)

/-- `Bot::GetIdealMove`: ask the decision tree's root for the best move at
the bot's difficulty. -/
def GetIdealMove (c : Chess) (difficulty : Nat) : Option Mv × Chess :=
  AlphaBetaRoot c difficulty

/-! ## Auxiliary definitions used by the statements -/

/-- Node count of the legal-move tree (perft). -/
def perft (c : Chess) : Nat → Nat
  | 0 => 1
  | d + 1 =>
    (AllMoves c).foldl (fun acc m => acc + perft (searchStep c m) d) 0

/-- A well-formed board: 8 rows of 8 cells, the shape of `char board[8][8]`.
Every reachable state of the game has this shape. -/
def WFB (b : Board) : Prop := b.length = 8 ∧ ∀ r ∈ b, r.length = 8

/-- A well-formed `Chess` state. -/
def WF (c : Chess) : Prop := WFB c.board

/-- The fool's mate sequence, in board coordinates: white f2→f3, black
e7→e5, white g2→g4, black Qd8→h4 mate. -/
def foolsMate : List Mv := [⟨6, 5, 5, 5⟩, ⟨1, 4, 3, 4⟩, ⟨6, 6, 4, 6⟩, ⟨0, 3, 4, 7⟩]

/-- A king-shuffle-style repetition: both knights out and back, so the
initial configuration (placement + side to move) recurs every 4 plies. -/
def knightShuffle : List Mv := [⟨7, 6, 5, 5⟩, ⟨0, 6, 2, 5⟩, ⟨5, 5, 7, 6⟩, ⟨2, 5, 0, 6⟩]

/-- A ply is quiet when it neither moves a pawn nor captures: exactly the
condition under which `MovePiece` increments the half-move clock. -/
def quietPly (c : Chess) (m : Mv) : Prop :=
  ¬(isPawnPiece (getSq c.board m.x1 m.y1) = true) ∧ getSq c.board m.x2 m.y2 = 0

/-- Play a list of moves from an arbitrary state (Game Controller steps). -/
def playFrom (c : Chess) (ms : List Mv) : Chess := ms.foldl stepMove c

instance (c : Chess) : Decidable (WF c) := by
  unfold WF WFB
  infer_instance

instance (c : Chess) (m : Mv) : Decidable (quietPly c m) := by
  unfold quietPly
  infer_instance

/-- The shape facts every generated pseudo-legal move enjoys; they are
what `MovePieceBack ∘ MovePiece` needs to restore the state.  For a
castling classification: the king stays on its row, starts on column 4,
and the squares the king and rook land on are empty; for an en passant
classification: the move changes row and the passed square holds the
opponent's pawn. -/
def MvFacts (c : Chess) (s : Bool) (m : Mv) : Prop :=
  inB m.x1 m.y1 = true ∧ inB m.x2 m.y2 = true ∧ ¬(m.x1 = m.x2 ∧ m.y1 = m.y2) ∧
  isSide s (getSq c.board m.x1 m.y1) = true ∧
  (classify c m = .CASTLING →
    m.x2 = m.x1 ∧ m.y1 = 4 ∧
    ((m.y2 = 6 ∧ getSq c.board m.x1 5 = 0 ∧ getSq c.board m.x1 6 = 0) ∨
     (m.y2 = 2 ∧ getSq c.board m.x1 2 = 0 ∧ getSq c.board m.x1 3 = 0))) ∧
  (classify c m = .EN_PASSANT →
    m.x1 ≠ m.x2 ∧ getSq c.board m.x1 m.y2 = (if s then B_PAWN else W_PAWN))

/-- Specification of one pruned-search call against its pure value `g`:
the working state is returned unchanged, a fail-low result stays below α,
a fail-high result stays above β, and a result inside the window is
exact. -/
def ABSpec (f : Chess → Int → Int → Int × Chess) (g : Chess → Int) : Prop :=
  ∀ (c' : Chess) (α' β' : Int), WF c' → α' < β' →
    (f c' α' β').2 = c' ∧
    (g c' ≤ α' → (f c' α' β').1 ≤ α') ∧
    (β' ≤ g c' → β' ≤ (f c' α' β').1) ∧
    (α' < g c' → g c' < β' → (f c' α' β').1 = g c')

/-! ## The `Chess` class interface, transcribed from chess.h

Each entry records a member function's name, whether it is declared in the
`public` section, and whether its exception specification is `noexcept`
(`false` = `noexcept(false)`).  Lines 105–155 of chess.h. -/

structure MemberDecl where
  name : String
  isPublic : Bool
  isNoexcept : Bool
deriving DecidableEq, Repr

def chessMembers : List MemberDecl :=
  [⟨"WithinBounds", false, true⟩,
   ⟨"ChangeToString", false, true⟩,
   ⟨"ToString", false, true⟩,
   ⟨"PieceNameToString", false, true⟩,
   ⟨"EvaluatePiece", false, true⟩,
   ⟨"ClearAllMoves", false, true⟩,
   ⟨"PrintSeparator", false, true⟩,
   ⟨"CopyBoard", false, true⟩,
   ⟨"AreBoardsEqual", false, true⟩,
   ⟨"CanMovePiece", false, true⟩,
   ⟨"GetCurrentPlayer", false, true⟩,
   ⟨"GetCurrentPlayerConst", false, true⟩,
   ⟨"GetOtherPlayer", false, true⟩,
   ⟨"GetOtherPlayerConst", false, true⟩,
   ⟨"ChangeTurn", false, true⟩,
   ⟨"AppendToAllGameMoves", false, true⟩,
   ⟨"Reset", false, true⟩,
   ⟨"CheckCoordinates", false, false⟩,
   ⟨"EndGameText", false, true⟩,
   ⟨"GetEnPassant", false, true⟩,
   ⟨"ThreefoldRepetition", false, true⟩,
   ⟨"IsCheck", false, true⟩,
   ⟨"PawnMoves", false, true⟩,
   ⟨"RookMoves", false, true⟩,
   ⟨"KnightMoves", false, true⟩,
   ⟨"BishopMoves", false, true⟩,
   ⟨"QueenMoves", false, true⟩,
   ⟨"KingMoves", false, true⟩,
   ⟨"GetRandomMove", false, true⟩,
   ⟨"ManuallyPromotePawn", false, true⟩,
   ⟨"UpdateBoard", false, true⟩,
   ⟨"UpdateScore", false, true⟩,
   ⟨"EvaluatePosition", false, true⟩,
   ⟨"PrintAllMovesMadeInOrder", false, true⟩,
   ⟨"CheckEndgame", false, true⟩,
   ⟨"Chess", true, true⟩,
   ⟨"ChangeToRealCoordinates", true, true⟩,
   ⟨"GetPiece", true, true⟩,
   ⟨"GetTurn", true, true⟩,
   ⟨"AllMoves", true, true⟩,
   ⟨"MovePiece", true, true⟩,
   ⟨"MovePieceBack", true, true⟩,
   ⟨"EvaluateBoard", true, true⟩,
   ⟨"PrintBoard", true, true⟩,
   ⟨"PlayersTurn", true, true⟩,
   ⟨"BotsTurn", true, true⟩,
   ⟨"GameOver", true, true⟩]

/-! ## Exception flow of coordinate validation

`Chess::CheckCoordinates` is declared `noexcept(false)` — it throws an
`InvalidCoordinate`-style exception on an out-of-range coordinate (spec
§4.1, modelled from the spec) — while every function that can call it,
`Chess::GetPiece` in particular, is declared `noexcept`.  In C++ an
exception escaping a `noexcept` function calls `std::terminate`, so the
observable outcome of such a call is process termination, not a catchable
error in the caller. -/

inductive CallOutcome where
  /-- The call returned this piece value normally. -/
  | ok (v : Int)
  /-- The exception hit a `noexcept` boundary: `std::terminate`. -/
  | terminated
deriving DecidableEq, Repr

/-- `Chess::CheckCoordinates` throws exactly on an out-of-range coordinate
(modelled from the spec; the `noexcept(false)` declaration is from
chess.h). -/
def CheckCoordinatesThrows (x y : Int) : Bool := !inB x y

/-- The outcome of `GetPiece(x, y)` observable by its caller: the
coordinate check runs first (modelled from the spec), and because
`GetPiece` is `noexcept` (chess.h line 145) a throw from the check cannot
propagate — the process terminates. -/
def GetPieceOutcome (c : Chess) (x y : Int) : CallOutcome :=
  if CheckCoordinatesThrows x y then .terminated else .ok (getSq c.board x y)

/-! # Theorems

## Board-access lemmas -/

lemma inB_iff {x y : Int} : inB x y = true ↔ 0 ≤ x ∧ x ≤ 7 ∧ 0 ≤ y ∧ y ≤ 7 := by
  simp [inB, WithinBounds, Bool.and_eq_true, decide_eq_true_eq]
  tauto

lemma getD_set_self {α} {l : List α} {i : Nat} {a d : α} (h : i < l.length) :
    (l.set i a).getD i d = a := by
  simp [List.getD_eq_getElem?_getD, List.getElem?_set_self h]

lemma getD_set_ne {α} {l : List α} {i j : Nat} {a d : α} (h : i ≠ j) :
    (l.set i a).getD j d = l.getD j d := by
  simp [List.getD_eq_getElem?_getD, List.getElem?_set_ne h]

lemma set_getD_self {α} {l : List α} {i : Nat} {d : α} (h : i < l.length) :
    l.set i (l.getD i d) = l := by
  apply List.ext_getElem?
  intro j
  rcases eq_or_ne i j with rfl | hj
  · simp [List.getElem?_set_self h, List.getD_eq_getElem?_getD,
      List.getElem?_eq_getElem h]
  · simp [List.getElem?_set_ne hj]

lemma mem_of_mem_set {α} :
    ∀ (l : List α) (i : Nat) (a x : α), x ∈ l.set i a → x ∈ l ∨ x = a := by
  intro l
  induction l with
  | nil => intro i a x h; simp at h
  | cons hd tl ih =>
    intro i a x h
    cases i with
    | zero =>
      rcases List.mem_cons.mp h with rfl | h'
      · exact Or.inr rfl
      · exact Or.inl (List.mem_cons_of_mem _ h')
    | succ n =>
      rcases List.mem_cons.mp h with rfl | h'
      · exact Or.inl (List.mem_cons_self _ _)
      · rcases ih n a x h' with h'' | h''
        · exact Or.inl (List.mem_cons_of_mem _ h'')
        · exact Or.inr h''

lemma WFB_row {b : Board} (hb : WFB b) {i : Nat} (hi : i < 8) :
    (b.getD i []).length = 8 := by
  have hlen : i < b.length := by rw [hb.1]; exact hi
  have : b.getD i [] = b[i] := by
    simp [List.getD_eq_getElem?_getD, List.getElem?_eq_getElem hlen]
  rw [this]
  exact hb.2 _ (List.getElem_mem hlen)

lemma WFB_setSq {b : Board} (hb : WFB b) (x y p : Int) : WFB (setSq b x y p) := by
  unfold setSq
  by_cases hx : x.toNat < 8
  · constructor
    · rw [List.length_set]; exact hb.1
    · intro r hr
      rcases mem_of_mem_set _ _ _ _ hr with h | h
      · exact hb.2 _ h
      · subst h
        rw [List.length_set]
        exact WFB_row hb hx
  · have hle : b.length ≤ x.toNat := by rw [hb.1]; omega
    rw [List.set_eq_of_length_le hle]
    exact hb

lemma getSq_setSq_self {b : Board} (hb : WFB b) {x y : Int} (h : inB x y = true)
    (p : Int) : getSq (setSq b x y p) x y = p := by
  obtain ⟨hx0, hx7, hy0, hy7⟩ := inB_iff.mp h
  have hx : x.toNat < b.length := by rw [hb.1]; omega
  have hy : y.toNat < (b.getD x.toNat []).length := by
    rw [WFB_row hb (by omega)]; omega
  unfold getSq setSq
  rw [getD_set_self hx, getD_set_self (by simpa using hy)]

lemma getSq_setSq_ne {b : Board} (hb : WFB b) {x y x' y' : Int}
    (h : inB x y = true) (h' : inB x' y' = true) (hne : ¬(x = x' ∧ y = y'))
    (p : Int) : getSq (setSq b x y p) x' y' = getSq b x' y' := by
  obtain ⟨hx0, hx7, hy0, hy7⟩ := inB_iff.mp h
  obtain ⟨hx0', hx7', hy0', hy7'⟩ := inB_iff.mp h'
  unfold getSq setSq
  by_cases hxx : x.toNat = x'.toNat
  · have hyne : y.toNat ≠ y'.toNat := by omega
    rw [hxx, getD_set_self (by rw [hb.1]; omega), getD_set_ne hyne]
  · rw [getD_set_ne hxx]

lemma setSq_setSq_self {b : Board} {x y : Int} (p q : Int) :
    setSq (setSq b x y p) x y q = setSq b x y q := by
  unfold setSq
  by_cases hx : x.toNat < b.length
  · rw [getD_set_self hx, List.set_set, List.set_set]
  · have hle : b.length ≤ x.toNat := by omega
    simp [List.set_eq_of_length_le hle]

lemma setSq_comm {b : Board} (hb : WFB b) {x y x' y' : Int}
    (h : inB x y = true) (h' : inB x' y' = true) (hne : ¬(x = x' ∧ y = y'))
    (p q : Int) :
    setSq (setSq b x y p) x' y' q = setSq (setSq b x' y' q) x y p := by
  obtain ⟨hx0, hx7, hy0, hy7⟩ := inB_iff.mp h
  obtain ⟨hx0', hx7', hy0', hy7'⟩ := inB_iff.mp h'
  have hx : x.toNat < b.length := by rw [hb.1]; omega
  have hx' : x'.toNat < b.length := by rw [hb.1]; omega
  unfold setSq
  by_cases hxx : x.toNat = x'.toNat
  · have hyne : y.toNat ≠ y'.toNat := by omega
    rw [← hxx, getD_set_self hx, getD_set_self hx, List.set_set, List.set_set,
      List.set_comm _ _ _ hyne]
  · rw [getD_set_ne hxx, getD_set_ne (Ne.symm hxx), List.set_comm _ _ _ hxx]

lemma setSq_getSq_self {b : Board} (hb : WFB b) {x y : Int}
    (h : inB x y = true) : setSq b x y (getSq b x y) = b := by
  obtain ⟨hx0, hx7, hy0, hy7⟩ := inB_iff.mp h
  have hx : x.toNat < b.length := by rw [hb.1]; omega
  have hy : y.toNat < (b.getD x.toNat []).length := by
    rw [WFB_row hb (by omega)]; omega
  unfold setSq getSq
  rw [set_getD_self hy, set_getD_self hx]

/-! ## Shape facts of generated moves -/

lemma raySquares_mem {b : Board} {s : Bool} {dx dy : Int} :
    ∀ {fuel : Nat} {x y : Int} {t : Int × Int},
      t ∈ raySquares b s x y dx dy fuel →
      inB t.1 t.2 = true ∧
      (0 < dx → x < t.1) ∧ (dx < 0 → t.1 < x) ∧ (dx = 0 → t.1 = x) ∧
      (0 < dy → y < t.2) ∧ (dy < 0 → t.2 < y) ∧ (dy = 0 → t.2 = y) := by
  intro fuel
  induction fuel with
  | zero => intro x y t h; simp [raySquares] at h
  | succ n ih =>
    intro x y t h
    rw [raySquares] at h
    by_cases hin : inB (x + dx) (y + dy) = true
    · rw [if_pos hin] at h
      by_cases hq : getSq b (x + dx) (y + dy) = 0
      · rw [if_pos hq] at h
        rcases List.mem_cons.mp h with rfl | h'
        · refine ⟨hin, ?_, ?_, ?_, ?_, ?_, ?_⟩ <;> intro hd <;> simp <;> omega
        · obtain ⟨h1, h2, h3, h4, h5, h6, h7⟩ := ih h'
          refine ⟨h1, ?_, ?_, ?_, ?_, ?_, ?_⟩ <;> intro hd
          · exact lt_trans (by omega) (h2 hd)
          · exact lt_trans (h3 hd) (by omega)
          · rw [h4 hd]; omega
          · exact lt_trans (by omega) (h5 hd)
          · exact lt_trans (h6 hd) (by omega)
          · rw [h7 hd]; omega
      · rw [if_neg hq] at h
        by_cases hs : isSide (!s) (getSq b (x + dx) (y + dy)) = true
        · rw [if_pos hs] at h
          rcases List.mem_cons.mp h with rfl | h'
          · refine ⟨hin, ?_, ?_, ?_, ?_, ?_, ?_⟩ <;> intro hd <;> simp <;> omega
          · simp at h'
        · rw [if_neg hs] at h; simp at h
    · rw [if_neg hin] at h; simp at h

lemma mem_toMvs {x y : Int} {ts : List (Int × Int)} {m : Mv}
    (h : m ∈ toMvs x y ts) :
    ∃ t ∈ ts, m = ⟨x, y, t.1, t.2⟩ := by
  obtain ⟨t, ht, rfl⟩ := List.mem_map.mp h
  exact ⟨t, ht, rfl⟩

/-- Targets of rook/bishop/queen/knight and normal king moves: in bounds
and different from the source square. -/
lemma slide_target_facts {b : Board} {s : Bool} {x y : Int} {m : Mv}
    (h : (∃ d ∈ rookDirs, m ∈ toMvs x y (raySquares b s x y d.1 d.2 8)) ∨
         (∃ d ∈ bishopDirs, m ∈ toMvs x y (raySquares b s x y d.1 d.2 8))) :
    m.x1 = x ∧ m.y1 = y ∧ inB m.x2 m.y2 = true ∧ ¬(m.x1 = m.x2 ∧ m.y1 = m.y2) := by
  have main : ∀ (dx dy : Int), ¬(dx = 0 ∧ dy = 0) →
      m ∈ toMvs x y (raySquares b s x y dx dy 8) →
      m.x1 = x ∧ m.y1 = y ∧ inB m.x2 m.y2 = true ∧
        ¬(m.x1 = m.x2 ∧ m.y1 = m.y2) := by
    intro dx dy hd hm
    obtain ⟨t, ht, rfl⟩ := mem_toMvs hm
    obtain ⟨h1, h2, h3, h4, h5, h6, h7⟩ := raySquares_mem ht
    refine ⟨rfl, rfl, h1, ?_⟩
    simp only
    rcases lt_trichotomy dx 0 with hdx | hdx | hdx
    · have := h3 hdx; omega
    · subst hdx
      rcases lt_trichotomy dy 0 with hdy | hdy | hdy
      · have := h6 hdy; omega
      · exact absurd ⟨rfl, hdy⟩ hd
      · have := h5 hdy; omega
    · have := h2 hdx; omega
  rcases h with ⟨d, hd, hm⟩ | ⟨d, hd, hm⟩
  · simp only [rookDirs, List.mem_cons, List.not_mem_nil, or_false] at hd
    rcases hd with rfl | rfl | rfl | rfl <;>
      exact main _ _ (by simp) hm
  · simp only [bishopDirs, List.mem_cons, List.not_mem_nil, or_false] at hd
    rcases hd with rfl | rfl | rfl | rfl <;>
      exact main _ _ (by simp) hm

lemma RookMoves_facts {b : Board} {s : Bool} {x y : Int} {m : Mv}
    (h : m ∈ RookMoves b s x y) :
    m.x1 = x ∧ m.y1 = y ∧ inB m.x2 m.y2 = true ∧ ¬(m.x1 = m.x2 ∧ m.y1 = m.y2) := by
  unfold RookMoves at h
  rw [List.flatMap_eq_foldl] at h
  apply slide_target_facts
  left
  unfold toMvs at h ⊢
  rw [← List.flatMap_eq_foldl, List.map_flatMap] at h
  obtain ⟨d, hd, hm⟩ := List.mem_flatMap.mp h
  exact ⟨d, hd, hm⟩

lemma BishopMoves_facts {b : Board} {s : Bool} {x y : Int} {m : Mv}
    (h : m ∈ BishopMoves b s x y) :
    m.x1 = x ∧ m.y1 = y ∧ inB m.x2 m.y2 = true ∧ ¬(m.x1 = m.x2 ∧ m.y1 = m.y2) := by
  unfold BishopMoves at h
  apply slide_target_facts
  right
  unfold toMvs at h ⊢
  rw [List.map_flatMap] at h
  obtain ⟨d, hd, hm⟩ := List.mem_flatMap.mp h
  exact ⟨d, hd, hm⟩

lemma QueenMoves_facts {b : Board} {s : Bool} {x y : Int} {m : Mv}
    (h : m ∈ QueenMoves b s x y) :
    m.x1 = x ∧ m.y1 = y ∧ inB m.x2 m.y2 = true ∧ ¬(m.x1 = m.x2 ∧ m.y1 = m.y2) := by
  unfold QueenMoves at h
  rcases List.mem_append.mp h with h' | h'
  · exact RookMoves_facts h'
  · exact BishopMoves_facts h'

lemma KnightMoves_facts {b : Board} {s : Bool} {x y : Int} {m : Mv}
    (h : m ∈ KnightMoves b s x y) :
    m.x1 = x ∧ m.y1 = y ∧ inB m.x2 m.y2 = true ∧ ¬(m.x1 = m.x2 ∧ m.y1 = m.y2) := by
  unfold KnightMoves at h
  obtain ⟨t, ht, rfl⟩ := mem_toMvs h
  obtain ⟨ht', hguard⟩ := List.mem_filter.mp ht
  obtain ⟨o, ho, rfl⟩ := List.mem_map.mp ht'
  have hin : inB (x + o.1) (y + o.2) = true := by
    rw [Bool.and_eq_true] at hguard
    exact hguard.1
  refine ⟨rfl, rfl, hin, ?_⟩
  simp only [knightOffs, List.mem_cons, List.not_mem_nil, or_false] at ho
  simp only
  rcases ho with rfl | rfl | rfl | rfl | rfl | rfl | rfl | rfl <;> simp

/-- The `classify` dispatch, with the source piece made explicit. -/
lemma classify_eq {c : Chess} {m : Mv} :
    classify c m =
      (let p := getSq c.board m.x1 m.y1
      if isKingPiece p ∧ (m.y2 - m.y1 = 2 ∨ m.y1 - m.y2 = 2) then .CASTLING
      else if isPawnPiece p ∧ m.x2 = promotionRow (isWhitePiece p) then .PROMOTION
      else if isPawnPiece p ∧ m.y1 ≠ m.y2 ∧ getSq c.board m.x2 m.y2 = 0 then
        .EN_PASSANT
      else .NORMAL) := rfl

lemma classify_not_castling {c : Chess} {m : Mv}
    (h : isKingPiece (getSq c.board m.x1 m.y1) = false) :
    classify c m ≠ .CASTLING := by
  rw [classify_eq]
  simp only [h]
  split
  · simp_all
  · split
    · simp
    · split <;> simp

lemma classify_not_castling_near {c : Chess} {m : Mv}
    (h : m.y1 - m.y2 ≠ 2 ∧ m.y2 - m.y1 ≠ 2) :
    classify c m ≠ .CASTLING := by
  rw [classify_eq]
  dsimp only
  split
  · simp_all
  · split
    · simp
    · split <;> simp

lemma classify_not_ep_notpawn {c : Chess} {m : Mv}
    (h : isPawnPiece (getSq c.board m.x1 m.y1) = false) :
    classify c m ≠ .EN_PASSANT := by
  rw [classify_eq]
  dsimp only
  split
  · simp
  · split
    · simp
    · split
      · simp_all
      · simp

lemma classify_not_ep_same_col {c : Chess} {m : Mv} (h : m.y1 = m.y2) :
    classify c m ≠ .EN_PASSANT := by
  rw [classify_eq]
  dsimp only
  split
  · simp
  · split
    · simp
    · split
      · simp_all
      · simp

lemma classify_not_ep_capture {c : Chess} {m : Mv}
    (h : getSq c.board m.x2 m.y2 ≠ 0) :
    classify c m ≠ .EN_PASSANT := by
  rw [classify_eq]
  dsimp only
  split
  · simp
  · split
    · simp
    · split
      · simp_all
      · simp

/-- A piece of a side is never the empty square. -/
lemma isSide_ne_zero {s : Bool} {p : Int} (h : isSide s p = true) : p ≠ 0 := by
  unfold isSide at h
  cases s <;> simp at h <;> omega

lemma PawnMoves_facts {c : Chess} {s : Bool} {x y : Int} {m : Mv}
    (hin : inB x y = true) (hm : m ∈ PawnMoves c s x y) :
    m.x1 = x ∧ m.y1 = y ∧ inB m.x2 m.y2 = true ∧ ¬(m.x1 = m.x2 ∧ m.y1 = m.y2) ∧
    (classify c m = .EN_PASSANT →
      m.x1 ≠ m.x2 ∧ getSq c.board m.x1 m.y2 = (if s then B_PAWN else W_PAWN)) := by
  obtain ⟨hx0, hx7, hy0, hy7⟩ := inB_iff.mp hin
  have hsr : pawnStartRow s = 6 ∧ pawnDir s = -1 ∨
      pawnStartRow s = 1 ∧ pawnDir s = 1 := by
    cases s <;> simp [pawnDir, pawnStartRow]
  unfold PawnMoves at hm
  rcases List.mem_append.mp hm with hm' | hep
  rcases List.mem_append.mp hm' with hm'' | hcapR
  rcases List.mem_append.mp hm'' with hm''' | hcapL
  rcases List.mem_append.mp hm''' with hfwd | hdbl
  · -- single forward advance
    split at hfwd
    case isTrue hc =>
      rw [List.mem_singleton] at hfwd
      subst hfwd
      refine ⟨rfl, rfl, hc.1, ?_, ?_⟩
      · dsimp only; rcases hsr with ⟨_, h1⟩ | ⟨_, h1⟩ <;> omega
      · intro hcl
        exact absurd hcl (classify_not_ep_same_col rfl)
    case isFalse => simp at hfwd
  · -- double advance from the start row
    split at hdbl
    case isTrue hc =>
      rw [List.mem_singleton] at hdbl
      subst hdbl
      have hrow : x = pawnStartRow s := hc.1
      refine ⟨rfl, rfl, ?_, ?_, ?_⟩
      · rw [inB_iff]
        dsimp only
        rcases hsr with ⟨h1, h2⟩ | ⟨h1, h2⟩ <;> omega
      · dsimp only; rcases hsr with ⟨_, h1⟩ | ⟨_, h1⟩ <;> omega
      · intro hcl
        exact absurd hcl (classify_not_ep_same_col rfl)
    case isFalse => simp at hdbl
  · -- capture toward column y - 1
    split at hcapL
    case isTrue hc =>
      rw [List.mem_singleton] at hcapL
      subst hcapL
      refine ⟨rfl, rfl, hc.1, ?_, ?_⟩
      · dsimp only; omega
      · intro hcl
        exact absurd hcl (classify_not_ep_capture (isSide_ne_zero hc.2))
    case isFalse => simp at hcapL
  · -- capture toward column y + 1
    split at hcapR
    case isTrue hc =>
      rw [List.mem_singleton] at hcapR
      subst hcapR
      refine ⟨rfl, rfl, hc.1, ?_, ?_⟩
      · dsimp only; omega
      · intro hcl
        exact absurd hcl (classify_not_ep_capture (isSide_ne_zero hc.2))
    case isFalse => simp at hcapR
  · -- en passant
    rcases hgep : GetEnPassant c s x y with _ | ec
    · rw [hgep] at hep; simp at hep
    · rw [hgep] at hep
      rw [List.mem_singleton] at hep
      subst hep
      unfold GetEnPassant at hgep
      split at hgep
      · simp at hgep
      · split at hgep
        case isTrue hs =>
          dsimp only at hgep
          split at hgep
          case isTrue hc =>
            rw [Option.some_inj] at hgep
            obtain ⟨hpw, _, _, hx2, _, hinb, _⟩ := hc
            subst hgep
            refine ⟨rfl, rfl, hinb, ?_, ?_⟩
            · dsimp only; rcases hsr with ⟨_, h1⟩ | ⟨_, h1⟩ <;> omega
            · intro _
              refine ⟨?_, ?_⟩
              · dsimp only; rcases hsr with ⟨_, h1⟩ | ⟨_, h1⟩ <;> omega
              · dsimp only
                rw [← hx2, if_pos hs]
                exact hpw
          case isFalse => simp at hgep
        case isFalse hs =>
          dsimp only at hgep
          split at hgep
          case isTrue hc =>
            rw [Option.some_inj] at hgep
            obtain ⟨hpw, _, _, hx2, _, hinb, _⟩ := hc
            subst hgep
            refine ⟨rfl, rfl, hinb, ?_, ?_⟩
            · dsimp only; rcases hsr with ⟨_, h1⟩ | ⟨_, h1⟩ <;> omega
            · intro _
              refine ⟨?_, ?_⟩
              · dsimp only; rcases hsr with ⟨_, h1⟩ | ⟨_, h1⟩ <;> omega
              · dsimp only
                rw [← hx2, if_neg hs]
                exact hpw
          case isFalse => simp at hgep

lemma KingMoves_facts {c : Chess} {s : Bool} {x y : Int} {m : Mv}
    (hm : m ∈ KingMoves c s x y) :
    m.x1 = x ∧ m.y1 = y ∧ inB m.x2 m.y2 = true ∧ ¬(m.x1 = m.x2 ∧ m.y1 = m.y2) ∧
    (classify c m = .CASTLING →
      m.x2 = m.x1 ∧ m.y1 = 4 ∧
      ((m.y2 = 6 ∧ getSq c.board m.x1 5 = 0 ∧ getSq c.board m.x1 6 = 0) ∨
       (m.y2 = 2 ∧ getSq c.board m.x1 2 = 0 ∧ getSq c.board m.x1 3 = 0))) := by
  have hhome : backRow s = 7 ∨ backRow s = 0 := by
    unfold backRow; cases s <;> simp
  unfold KingMoves at hm
  rcases List.mem_append.mp hm with hm' | hqs
  rcases List.mem_append.mp hm' with hnorm | hks
  · -- one of the 8 adjacent squares
    obtain ⟨t, ht, rfl⟩ := mem_toMvs hnorm
    obtain ⟨ht', hguard⟩ := List.mem_filter.mp ht
    obtain ⟨o, ho, rfl⟩ := List.mem_map.mp ht'
    rw [Bool.and_eq_true] at hguard
    have hnear : o.2 = 1 ∨ o.2 = 0 ∨ o.2 = -1 := by
      simp only [kingOffs, List.mem_cons, List.not_mem_nil, or_false] at ho
      rcases ho with rfl | rfl | rfl | rfl | rfl | rfl | rfl | rfl <;> simp
    refine ⟨rfl, rfl, hguard.1, ?_, ?_⟩
    · simp only [kingOffs, List.mem_cons, List.not_mem_nil, or_false] at ho
      rcases ho with rfl | rfl | rfl | rfl | rfl | rfl | rfl | rfl <;> simp
    · intro hcl
      refine absurd hcl (classify_not_castling_near ?_)
      dsimp only
      omega
  · -- kingside castling
    split at hks
    case isTrue hs =>
      split at hks
      case isTrue hc =>
        rw [List.mem_singleton] at hks
        subst hks
        obtain ⟨_, ⟨hx, hy, _⟩, _, h5, h6, _⟩ := hc
        subst hx
        refine ⟨rfl, rfl, ?_, ?_, ?_⟩
        · rw [inB_iff]; dsimp only; rcases hhome with h | h <;> rw [h] <;> omega
        · dsimp only; omega
        · intro _
          exact ⟨rfl, hy, Or.inl ⟨rfl, h5, h6⟩⟩
      case isFalse => simp at hks
    case isFalse hs =>
      split at hks
      case isTrue hc =>
        rw [List.mem_singleton] at hks
        subst hks
        obtain ⟨_, ⟨hx, hy, _⟩, _, h5, h6, _⟩ := hc
        subst hx
        refine ⟨rfl, rfl, ?_, ?_, ?_⟩
        · rw [inB_iff]; dsimp only; rcases hhome with h | h <;> rw [h] <;> omega
        · dsimp only; omega
        · intro _
          exact ⟨rfl, hy, Or.inl ⟨rfl, h5, h6⟩⟩
      case isFalse => simp at hks
  · -- queenside castling
    split at hqs
    case isTrue hs =>
      split at hqs
      case isTrue hc =>
        rw [List.mem_singleton] at hqs
        subst hqs
        obtain ⟨_, ⟨hx, hy, _⟩, _, _, h2, h3, _⟩ := hc
        subst hx
        refine ⟨rfl, rfl, ?_, ?_, ?_⟩
        · rw [inB_iff]; dsimp only; rcases hhome with h | h <;> rw [h] <;> omega
        · dsimp only; omega
        · intro _
          exact ⟨rfl, hy, Or.inr ⟨rfl, h2, h3⟩⟩
      case isFalse => simp at hqs
    case isFalse hs =>
      split at hqs
      case isTrue hc =>
        rw [List.mem_singleton] at hqs
        subst hqs
        obtain ⟨_, ⟨hx, hy, _⟩, _, _, h2, h3, _⟩ := hc
        subst hx
        refine ⟨rfl, rfl, ?_, ?_, ?_⟩
        · rw [inB_iff]; dsimp only; rcases hhome with h | h <;> rw [h] <;> omega
        · dsimp only; omega
        · intro _
          exact ⟨rfl, hy, Or.inr ⟨rfl, h2, h3⟩⟩
      case isFalse => simp at hqs

lemma pieceKind_pos {p k : Int} (h : pieceKind p = k) (hk : k ≠ 0) :
    p = k ∨ p = k - 7 := by
  unfold pieceKind at h
  split at h
  · omega
  · split at h <;> omega

lemma isKingPiece_false {p : Int} (h1 : p ≠ 1) (h2 : p ≠ -6) :
    isKingPiece p = false := by
  simp only [isKingPiece, W_KING, B_KING, decide_eq_false_iff_not]
  omega

lemma isPawnPiece_false {p : Int} (h1 : p ≠ 6) (h2 : p ≠ -1) :
    isPawnPiece p = false := by
  simp only [isPawnPiece, W_PAWN, B_PAWN, decide_eq_false_iff_not]
  omega

lemma mem_enum_getD {α} {l : List α} {i : Nat} {a : α} (d : α)
    (h : (i, a) ∈ l.enum) : i < l.length ∧ l.getD i d = a := by
  rw [List.mk_mem_enum_iff_getElem?] at h
  obtain ⟨hl, heq⟩ := List.getElem?_eq_some.mp h
  refine ⟨hl, ?_⟩
  rw [List.getD_eq_getElem?_getD, h]
  rfl

/-- Every pseudo-legal move has the shape facts needed to undo it. -/
theorem pseudoMoves_wf {c : Chess} {s : Bool} {m : Mv} (hWF : WF c)
    (hm : m ∈ pseudoMoves c s) : MvFacts c s m := by
  unfold pseudoMoves at hm
  obtain ⟨xr, hxr, hm1⟩ := List.mem_flatMap.mp hm
  obtain ⟨yp, hyp, hm2⟩ := List.mem_flatMap.mp hm1
  obtain ⟨hi, hrow⟩ := mem_enum_getD [] hxr
  obtain ⟨hj, hcell⟩ := mem_enum_getD 0 hyp
  have hi8 : xr.1 < 8 := by rw [hWF.1] at hi; exact hi
  have hj8 : yp.1 < 8 := by
    have := WFB_row hWF hi8
    rw [hrow] at this
    rw [this] at hj
    exact hj
  have hinB : inB (xr.1 : Int) (yp.1 : Int) = true := by
    rw [inB_iff]; omega
  have hget : getSq c.board (xr.1 : Int) (yp.1 : Int) = yp.2 := by
    unfold getSq
    rw [Int.toNat_natCast, Int.toNat_natCast, hrow, hcell]
  unfold pieceMoves at hm2
  split at hm2
  case isFalse => simp at hm2
  case isTrue hside =>
    dsimp only at hm2
    split at hm2
    case isTrue hk =>
      -- pawn
      obtain ⟨e1, e2, hB, hC, hF⟩ := PawnMoves_facts hinB hm2
      have hv := pieceKind_pos hk (by omega)
      refine ⟨by rw [e1, e2]; exact hinB, hB, hC,
        by rw [e1, e2, hget]; exact hside, ?_, hF⟩
      intro hcl
      refine absurd hcl (classify_not_castling ?_)
      rw [e1, e2, hget]
      exact isKingPiece_false (by omega) (by omega)
    case isFalse =>
      split at hm2
      case isTrue hk =>
        -- rook
        obtain ⟨e1, e2, hB, hC⟩ := RookMoves_facts hm2
        have hv := pieceKind_pos hk (by omega)
        refine ⟨by rw [e1, e2]; exact hinB, hB, hC,
          by rw [e1, e2, hget]; exact hside, ?_, ?_⟩
        · intro hcl
          refine absurd hcl (classify_not_castling ?_)
          rw [e1, e2, hget]
          exact isKingPiece_false (by omega) (by omega)
        · intro hcl
          refine absurd hcl (classify_not_ep_notpawn ?_)
          rw [e1, e2, hget]
          exact isPawnPiece_false (by omega) (by omega)
      case isFalse =>
        split at hm2
        case isTrue hk =>
          -- knight
          obtain ⟨e1, e2, hB, hC⟩ := KnightMoves_facts hm2
          have hv := pieceKind_pos hk (by omega)
          refine ⟨by rw [e1, e2]; exact hinB, hB, hC,
            by rw [e1, e2, hget]; exact hside, ?_, ?_⟩
          · intro hcl
            refine absurd hcl (classify_not_castling ?_)
            rw [e1, e2, hget]
            exact isKingPiece_false (by omega) (by omega)
          · intro hcl
            refine absurd hcl (classify_not_ep_notpawn ?_)
            rw [e1, e2, hget]
            exact isPawnPiece_false (by omega) (by omega)
        case isFalse =>
          split at hm2
          case isTrue hk =>
            -- bishop
            obtain ⟨e1, e2, hB, hC⟩ := BishopMoves_facts hm2
            have hv := pieceKind_pos hk (by omega)
            refine ⟨by rw [e1, e2]; exact hinB, hB, hC,
              by rw [e1, e2, hget]; exact hside, ?_, ?_⟩
            · intro hcl
              refine absurd hcl (classify_not_castling ?_)
              rw [e1, e2, hget]
              exact isKingPiece_false (by omega) (by omega)
            · intro hcl
              refine absurd hcl (classify_not_ep_notpawn ?_)
              rw [e1, e2, hget]
              exact isPawnPiece_false (by omega) (by omega)
          case isFalse =>
            split at hm2
            case isTrue hk =>
              -- queen
              obtain ⟨e1, e2, hB, hC⟩ := QueenMoves_facts hm2
              have hv := pieceKind_pos hk (by omega)
              refine ⟨by rw [e1, e2]; exact hinB, hB, hC,
                by rw [e1, e2, hget]; exact hside, ?_, ?_⟩
              · intro hcl
                refine absurd hcl (classify_not_castling ?_)
                rw [e1, e2, hget]
                exact isKingPiece_false (by omega) (by omega)
              · intro hcl
                refine absurd hcl (classify_not_ep_notpawn ?_)
                rw [e1, e2, hget]
                exact isPawnPiece_false (by omega) (by omega)
            case isFalse =>
              split at hm2
              case isTrue hk =>
                -- king
                obtain ⟨e1, e2, hB, hC, hE⟩ := KingMoves_facts hm2
                have hv := pieceKind_pos hk (by omega)
                refine ⟨by rw [e1, e2]; exact hinB, hB, hC,
                  by rw [e1, e2, hget]; exact hside, hE, ?_⟩
                intro hcl
                refine absurd hcl (classify_not_ep_notpawn ?_)
                rw [e1, e2, hget]
                exact isPawnPiece_false (by omega) (by omega)
              case isFalse => simp at hm2


/-! ## Apply/undo round trip -/

lemma classify_castling_facts {c : Chess} {m : Mv} (h : classify c m = .CASTLING) :
    isKingPiece (getSq c.board m.x1 m.y1) = true ∧
      (m.y2 - m.y1 = 2 ∨ m.y1 - m.y2 = 2) := by
  rw [classify_eq] at h
  dsimp only at h
  split at h
  case isTrue hcond => exact hcond
  case isFalse =>
    split at h
    · simp at h
    · split at h <;> simp at h

lemma classify_promotion_facts {c : Chess} {m : Mv} (h : classify c m = .PROMOTION) :
    isPawnPiece (getSq c.board m.x1 m.y1) = true := by
  rw [classify_eq] at h
  dsimp only at h
  split at h
  · simp at h
  · split at h
    case isTrue hcond => exact hcond.1
    case isFalse =>
      split at h <;> simp at h

lemma classify_ep_facts {c : Chess} {m : Mv} (h : classify c m = .EN_PASSANT) :
    isPawnPiece (getSq c.board m.x1 m.y1) = true ∧ m.y1 ≠ m.y2 ∧
      getSq c.board m.x2 m.y2 = 0 := by
  rw [classify_eq] at h
  dsimp only at h
  split at h
  · simp at h
  · split at h
    · simp at h
    · split at h
      case isTrue hcond => exact hcond
      case isFalse => simp at h

lemma isPawnPiece_vals {p : Int} (h : isPawnPiece p = true) : p = 6 ∨ p = -1 := by
  simp only [isPawnPiece, W_PAWN, B_PAWN, decide_eq_true_eq] at h
  exact h

lemma isWhitePiece_eq_side {s : Bool} {p : Int} (h : isSide s p = true) :
    isWhitePiece p = s := by
  cases s
  · simp [isSide] at h
    simp [isWhitePiece]
    omega
  · simp [isSide] at h
    simp [isWhitePiece]
    omega

/-- Undoing the four square writes of a castling move restores the board:
`yA`, `yB`, `yT`, `yF` are the columns of the king's source, the king's
destination, the rook's destination and the rook's corner, all on row `x`;
the two landing squares start empty. -/
lemma castle_undo {b : Board} (hWF : WFB b) {x yA yB yT yF : Int}
    (hxA : inB x yA = true) (hxB : inB x yB = true) (hxT : inB x yT = true)
    (hxF : inB x yF = true)
    (hAB : yA ≠ yB) (hAT : yA ≠ yT) (hAF : yA ≠ yF) (hBT : yB ≠ yT)
    (hBF : yB ≠ yF) (hTF : yT ≠ yF)
    (hB0 : getSq b x yB = 0) (hT0 : getSq b x yT = 0) :
    setSq (setSq (setSq (setSq
        (setSq (setSq (setSq (setSq b x yB (getSq b x yA)) x yA 0) x yT (getSq b x yF)) x yF 0)
        x yA (getSq (setSq (setSq (setSq (setSq b x yB (getSq b x yA)) x yA 0) x yT (getSq b x yF)) x yF 0) x yB))
        x yB 0)
        x yF (getSq (setSq (setSq (setSq (setSq b x yB (getSq b x yA)) x yA 0) x yT (getSq b x yF)) x yF 0) x yT))
        x yT 0 = b := by
  have hneFB : ¬(x = x ∧ yF = yB) := fun h => hBF h.2.symm
  have hneTB : ¬(x = x ∧ yT = yB) := fun h => hBT h.2.symm
  have hneAB : ¬(x = x ∧ yA = yB) := fun h => hAB h.2
  have hneFT : ¬(x = x ∧ yF = yT) := fun h => hTF h.2.symm
  have hneFA : ¬(x = x ∧ yF = yA) := fun h => hAF h.2.symm
  have hneTA : ¬(x = x ∧ yT = yA) := fun h => hAT h.2.symm
  have hneTF : ¬(x = x ∧ yT = yF) := fun h => hTF h.2
  have w1 : WFB (setSq b x yB (getSq b x yA)) := WFB_setSq hWF _ _ _
  have w2 : WFB (setSq (setSq b x yB (getSq b x yA)) x yA 0) := WFB_setSq w1 _ _ _
  have w3 : WFB (setSq (setSq (setSq b x yB (getSq b x yA)) x yA 0) x yT (getSq b x yF)) :=
    WFB_setSq w2 _ _ _
  -- read the king back from its destination
  rw [getSq_setSq_ne w3 hxF hxB hneFB, getSq_setSq_ne w2 hxT hxB hneTB,
    getSq_setSq_ne w1 hxA hxB hneAB, getSq_setSq_self hWF hxB]
  -- read the rook back from its destination
  rw [getSq_setSq_ne w3 hxF hxT hneFT, getSq_setSq_self w2 hxT]
  -- move the king back across the board sets
  rw [setSq_comm w3 hxF hxA hneFA, setSq_comm w2 hxT hxA hneTA, setSq_setSq_self]
  -- clear the king destination back to empty
  rw [setSq_comm (WFB_setSq (WFB_setSq w1 _ _ _) _ _ _) hxF hxB hneFB,
    setSq_comm (WFB_setSq w1 _ _ _) hxT hxB hneTB,
    setSq_comm w1 hxA hxB hneAB, setSq_setSq_self]
  have habsB : setSq b x yB 0 = b := by
    rw [← hB0]; exact setSq_getSq_self hWF hxB
  rw [setSq_setSq_self, habsB, setSq_getSq_self hWF hxA]
  have habsF : setSq (setSq b x yT (getSq b x yF)) x yF (getSq b x yF) =
      setSq b x yT (getSq b x yF) := by
    have h1 : getSq (setSq b x yT (getSq b x yF)) x yF = getSq b x yF :=
      getSq_setSq_ne hWF hxT hxF hneTF _
    calc setSq (setSq b x yT (getSq b x yF)) x yF (getSq b x yF)
        = setSq (setSq b x yT (getSq b x yF)) x yF
            (getSq (setSq b x yT (getSq b x yF)) x yF) := by rw [h1]
      _ = setSq b x yT (getSq b x yF) :=
          setSq_getSq_self (WFB_setSq hWF _ _ _) hxF
  rw [habsF, setSq_setSq_self]
  rw [← hT0]
  exact setSq_getSq_self hWF hxT

/-- The board is restored exactly by `MovePieceBack` after `MovePiece`,
whatever the promotion and record flags were. -/
theorem roundtrip_board {c : Chess} {s : Bool} {m : Mv} (hWF : WF c)
    (hf : MvFacts c s m) (mp ur : Bool) :
    (MovePieceBack (MovePiece c m mp ur) m (undoInfo c m)).board = c.board := by
  obtain ⟨hA, hB, hC, hD, hE, hF⟩ := hf
  have hC' : ¬(m.x2 = m.x1 ∧ m.y2 = m.y1) := fun hand => hC ⟨hand.1.symm, hand.2.symm⟩
  rcases hcl : classify c m with _ | _ | _ | _
  · -- NORMAL
    simp only [MovePiece, MovePieceBack, undoInfo]
    simp only [hcl]
    rw [getSq_setSq_ne (WFB_setSq hWF _ _ _) hA hB hC, getSq_setSq_self hWF hB,
      setSq_setSq_self, setSq_comm hWF hB hA hC', setSq_setSq_self,
      ← getSq_setSq_ne hWF hA hB hC (getSq c.board m.x1 m.y1),
      setSq_getSq_self (WFB_setSq hWF _ _ _) hB, setSq_getSq_self hWF hA]
  · -- CASTLING
    obtain ⟨hx21, hy14, hside⟩ := hE hcl
    obtain ⟨ha1, ha2, ha3, ha4⟩ := inB_iff.mp hA
    rcases hside with ⟨hy26, h5, h6⟩ | ⟨hy22, h2, h3⟩
    · simp only [MovePiece, MovePieceBack, undoInfo]
      simp only [hcl]
      rw [hx21, hy14, hy26]
      have hif7 : (if (4:Int) < 6 then (7:Int) else 0) = 7 := by norm_num
      have hif5 : (if (4:Int) < 6 then (5:Int) else 3) = 5 := by norm_num
      rw [hif7, hif5]
      exact castle_undo hWF (by rw [inB_iff]; omega) (by rw [inB_iff]; omega)
        (by rw [inB_iff]; omega) (by rw [inB_iff]; omega)
        (by norm_num) (by norm_num) (by norm_num) (by norm_num) (by norm_num)
        (by norm_num) h6 h5
    · simp only [MovePiece, MovePieceBack, undoInfo]
      simp only [hcl]
      rw [hx21, hy14, hy22]
      have hif0 : (if (4:Int) < 2 then (7:Int) else 0) = 0 := by norm_num
      have hif3 : (if (4:Int) < 2 then (5:Int) else 3) = 3 := by norm_num
      rw [hif0, hif3]
      exact castle_undo hWF (by rw [inB_iff]; omega) (by rw [inB_iff]; omega)
        (by rw [inB_iff]; omega) (by rw [inB_iff]; omega)
        (by norm_num) (by norm_num) (by norm_num) (by norm_num) (by norm_num)
        (by norm_num) h2 h3
  · -- PROMOTION
    have hpawn := isPawnPiece_vals (classify_promotion_facts hcl)
    simp only [MovePiece, MovePieceBack, undoInfo]
    simp only [hcl]
    rw [getSq_setSq_ne (WFB_setSq hWF _ _ _) hA hB hC, getSq_setSq_self hWF hB]
    have hrest : (if isWhitePiece
          (if isWhitePiece (getSq c.board m.x1 m.y1) = true then W_QUEEN else B_QUEEN) =
            true then W_PAWN else B_PAWN) = getSq c.board m.x1 m.y1 := by
      by_cases hw : isWhitePiece (getSq c.board m.x1 m.y1) = true
      · rw [if_pos hw]
        simp only [isWhitePiece, W_QUEEN, W_PAWN] at hw ⊢
        simp only [decide_eq_true_eq] at hw ⊢
        rw [if_pos (by norm_num)]
        omega
      · rw [if_neg hw]
        simp only [isWhitePiece, B_QUEEN, B_PAWN] at hw ⊢
        simp only [decide_eq_true_eq] at hw ⊢
        rw [if_neg (by norm_num)]
        omega
    rw [hrest]
    rw [setSq_setSq_self, setSq_comm hWF hB hA hC', setSq_setSq_self,
      ← getSq_setSq_ne hWF hA hB hC (getSq c.board m.x1 m.y1),
      setSq_getSq_self (WFB_setSq hWF _ _ _) hB, setSq_getSq_self hWF hA]
  · -- EN_PASSANT
    obtain ⟨hx12, hcap⟩ := hF hcl
    obtain ⟨hpawn, hy12, hq0⟩ := classify_ep_facts hcl
    obtain ⟨ha1, ha2, ha3, ha4⟩ := inB_iff.mp hA
    obtain ⟨hb1, hb2, hb3, hb4⟩ := inB_iff.mp hB
    have hCin : inB m.x1 m.y2 = true := by rw [inB_iff]; omega
    have hneCA : ¬(m.x1 = m.x1 ∧ m.y2 = m.y1) := fun hand => hy12 hand.2.symm
    have hneCB : ¬(m.x1 = m.x2 ∧ m.y2 = m.y2) := fun hand => hx12 hand.1
    simp only [MovePiece, MovePieceBack, undoInfo]
    simp only [hcl]
    rw [getSq_setSq_ne (WFB_setSq (WFB_setSq hWF _ _ _) _ _ _) hCin hB hneCB,
      getSq_setSq_ne (WFB_setSq hWF _ _ _) hA hB hC, getSq_setSq_self hWF hB]
    have hcapr : (if isWhitePiece (getSq c.board m.x1 m.y1) = true then B_PAWN else W_PAWN)
        = getSq c.board m.x1 m.y2 := by
      rw [isWhitePiece_eq_side hD, hcap]
    rw [hcapr]
    have habs : setSq c.board m.x2 m.y2 0 = c.board := by
      rw [← hq0]
      exact setSq_getSq_self hWF hB
    rw [setSq_comm (WFB_setSq (WFB_setSq hWF _ _ _) _ _ _) hCin hA hneCA,
      setSq_setSq_self,
      setSq_comm (WFB_setSq (WFB_setSq hWF _ _ _) _ _ _) hCin hB hneCB,
      setSq_setSq_self,
      setSq_comm (WFB_setSq hWF _ _ _) hA hB hC,
      setSq_setSq_self,
      habs,
      setSq_getSq_self hWF hA,
      setSq_getSq_self hWF hCin]

/-- Full state restoration when the record is not updated: the exact
statement needed by the search, which applies moves with
`updateRecord = false`. -/
theorem MovePieceBack_MovePiece {c : Chess} {s : Bool} {m : Mv} (hWF : WF c)
    (hf : MvFacts c s m) (mp : Bool) :
    MovePieceBack (MovePiece c m mp false) m (undoInfo c m) = c := by
  have hb := roundtrip_board hWF hf mp false
  calc MovePieceBack (MovePiece c m mp false) m (undoInfo c m)
      = { c with board :=
          (MovePieceBack (MovePiece c m mp false) m (undoInfo c m)).board } := rfl
    _ = c := by rw [hb]


/-! ## Claim theorems -/

lemma mem_AllMoves {c : Chess} {m : Mv} (h : m ∈ AllMoves c) :
    m ∈ pseudoMoves c c.whitesTurn ∧ IsCheckAfter c m = false := by
  unfold AllMoves at h
  have h' := List.mem_filter.mp h
  exact ⟨h'.1, by simpa using h'.2⟩

/-- C1: for every legal move from any reachable (well-formed) position,
applying the move with `MovePiece` and undoing it with `MovePieceBack`
restores the pre-move state exactly — the board, both players'
castling-rights flags, and the half-move clock are identical to their
values before the move, for any promotion and record flags. -/
theorem apply_undo_roundtrip (c : Chess) (m : Mv) (hWF : WF c)
    (hm : m ∈ AllMoves c) (mp ur : Bool) :
    (MovePieceBack (MovePiece c m mp ur) m (undoInfo c m)).board = c.board ∧
    (MovePieceBack (MovePiece c m mp ur) m (undoInfo c m)).whiteCastling =
      c.whiteCastling ∧
    (MovePieceBack (MovePiece c m mp ur) m (undoInfo c m)).blackCastling =
      c.blackCastling ∧
    (MovePieceBack (MovePiece c m mp ur) m (undoInfo c m)).clock = c.clock := by
  have hf := pseudoMoves_wf hWF (mem_AllMoves hm).1
  exact ⟨roundtrip_board hWF hf mp ur, rfl, rfl, rfl⟩

/-- Witness for C1: the round trip at the concrete move e2–e4 from the
starting position, with the record updated as in a real game ply. -/
theorem apply_undo_roundtrip_witness :
    WF initialChess ∧ (⟨6, 4, 4, 4⟩ : Mv) ∈ AllMoves initialChess ∧
    ((MovePieceBack (MovePiece initialChess ⟨6, 4, 4, 4⟩ false true) ⟨6, 4, 4, 4⟩
        (undoInfo initialChess ⟨6, 4, 4, 4⟩)).board = initialChess.board ∧
     (MovePieceBack (MovePiece initialChess ⟨6, 4, 4, 4⟩ false true) ⟨6, 4, 4, 4⟩
        (undoInfo initialChess ⟨6, 4, 4, 4⟩)).whiteCastling =
       initialChess.whiteCastling ∧
     (MovePieceBack (MovePiece initialChess ⟨6, 4, 4, 4⟩ false true) ⟨6, 4, 4, 4⟩
        (undoInfo initialChess ⟨6, 4, 4, 4⟩)).blackCastling =
       initialChess.blackCastling ∧
     (MovePieceBack (MovePiece initialChess ⟨6, 4, 4, 4⟩ false true) ⟨6, 4, 4, 4⟩
        (undoInfo initialChess ⟨6, 4, 4, 4⟩)).clock = initialChess.clock) :=
  ⟨by decide, by decide,
    apply_undo_roundtrip initialChess ⟨6, 4, 4, 4⟩ (by decide) (by decide) false true⟩

/-- C2: every move in the list returned by `AllMoves` for the side to move
leaves that side's own king out of check after the move. -/
theorem allMoves_check_safe (c : Chess) (m : Mv) (hm : m ∈ AllMoves c) :
    IsCheck (MovePiece c m false false) c.whitesTurn = false :=
  (mem_AllMoves hm).2

/-- Witness for C2: check safety of the concrete legal move e2–e4 from the
starting position. -/
theorem allMoves_check_safe_witness :
    (⟨6, 4, 4, 4⟩ : Mv) ∈ AllMoves initialChess ∧
    IsCheck (MovePiece initialChess ⟨6, 4, 4, 4⟩ false false)
      initialChess.whitesTurn = false :=
  ⟨by decide, allMoves_check_safe initialChess ⟨6, 4, 4, 4⟩ (by decide)⟩

/-- C4: `CheckEndgame` reports Checkmate exactly when the side to move has
no legal moves (tested on the legal move set `AllMoves`) and is in check —
so a stalemate-style position is never classified as Checkmate — and after
the fool's mate sequence it reports Checkmate and the mated side's
legal-move list is empty. -/
theorem checkmate_detection :
    (∀ c : Chess, CheckEndgame c = some .CHECKMATE ↔
      (AllMoves c = [] ∧ IsCheck c c.whitesTurn = true)) ∧
    CheckEndgame (playGame foolsMate) = some .CHECKMATE ∧
    AllMoves (playGame foolsMate) = [] := by
  refine ⟨fun c => ?_, by decide, by decide⟩
  unfold CheckEndgame EndgameReasons
  by_cases hA : AllMoves c = [] ∧ IsCheck c c.whitesTurn = true
  · rw [if_pos hA]
    simp [hA]
  · rw [if_neg hA]
    simp only [List.nil_append]
    constructor
    · intro h
      exfalso
      split at h <;> split at h <;> simp at h
    · intro h
      exact absurd h hA

lemma fifty_mem_reasons (c : Chess) :
    Endgame.FIFTY_MOVES ∈ EndgameReasons c ↔ 100 ≤ c.clock := by
  unfold EndgameReasons
  constructor
  · intro h
    rcases List.mem_append.mp h with h' | h'
    · rcases List.mem_append.mp h' with h'' | h''
      · split at h'' <;> simp at h''
      · split at h''
        case isTrue hck => exact hck
        case isFalse => simp at h''
    · split at h' <;> simp at h'
  · intro h
    refine List.mem_append.mp ?_ |>.elim (fun h' => List.mem_append_left _ h')
      (fun h' => List.mem_append_right _ h')
    refine List.mem_append_left _ (List.mem_append_right _ ?_)
    rw [if_pos h]
    exact List.mem_singleton.mpr rfl

lemma stepMove_clock_quiet {c : Chess} {m : Mv} (h : quietPly c m) :
    (stepMove c m).clock = c.clock + 1 := by
  obtain ⟨hp, hq⟩ := h
  unfold stepMove ChangeTurn MovePiece
  dsimp only
  rw [if_neg]
  intro hor
  rcases hor with h' | h'
  · exact hp h'
  · exact h' hq

lemma quiet_trace_clock : ∀ (ms : List Mv) (c : Chess),
    (∀ i (hi : i < ms.length),
      quietPly (playFrom c (ms.take i)) (ms.get ⟨i, hi⟩)) →
    (playFrom c ms).clock = c.clock + ms.length := by
  intro ms
  induction ms with
  | nil => intro c _; rfl
  | cons m rest ih =>
    intro c hq
    have h0 : quietPly c m := by
      have := hq 0 (by simp)
      simpa using this
    have hstep : playFrom c (m :: rest) = playFrom (stepMove c m) rest := rfl
    rw [hstep, ih (stepMove c m) ?_, stepMove_clock_quiet h0]
    · simp
      omega
    · intro i hi
      have := hq (i + 1) (by simpa using Nat.succ_lt_succ hi)
      simpa using this

/-- C6: the fifty-move draw is signalled exactly when the half-move clock
has reached 100 plies; consequently, in a game segment of only quiet plies
(no pawn move, no capture) starting with clock 0, the draw is signalled
exactly from the 100th such ply on and at no earlier ply. -/
theorem fifty_move_rule :
    (∀ c : Chess, Endgame.FIFTY_MOVES ∈ EndgameReasons c ↔ 100 ≤ c.clock) ∧
    (∀ (c : Chess) (ms : List Mv), c.clock = 0 →
      (∀ i (hi : i < ms.length),
        quietPly (playFrom c (ms.take i)) (ms.get ⟨i, hi⟩)) →
      (Endgame.FIFTY_MOVES ∈ EndgameReasons (playFrom c ms) ↔ 100 ≤ ms.length)) := by
  refine ⟨fifty_mem_reasons, fun c ms h0 hq => ?_⟩
  rw [fifty_mem_reasons, quiet_trace_clock ms c hq, h0, Nat.zero_add]

/-- Witness for C6: the four-ply knight shuffle is all quiet plies from
clock 0, and the draw is (correctly) not signalled at ply 4. -/
theorem fifty_move_rule_witness :
    initialChess.clock = 0 ∧
    (Endgame.FIFTY_MOVES ∈ EndgameReasons (playFrom initialChess knightShuffle) ↔
      100 ≤ knightShuffle.length) :=
  ⟨rfl, fifty_move_rule.2 initialChess knightShuffle rfl (by decide)⟩

lemma threefold_mem_reasons (c : Chess) :
    Endgame.THREEFOLD_REP ∈ EndgameReasons c ↔ ThreefoldRepetition c = true := by
  unfold EndgameReasons
  constructor
  · intro h
    rcases List.mem_append.mp h with h' | h'
    · rcases List.mem_append.mp h' with h'' | h''
      · split at h'' <;> simp at h''
      · split at h'' <;> simp at h''
    · split at h'
      case isTrue hck => exact hck
      case isFalse => simp at h'
  · intro h
    refine List.mem_append_right _ ?_
    rw [if_pos h]
    exact List.mem_singleton.mpr rfl

lemma stepMove_record (c : Chess) (m : Mv) :
    (stepMove c m).allGameMoves = c.allGameMoves ++ [(classify c m, m)] := rfl

lemma playFrom_record_moves : ∀ (ms : List Mv) (c : Chess),
    (playFrom c ms).allGameMoves.map Prod.snd =
      c.allGameMoves.map Prod.snd ++ ms := by
  intro ms
  induction ms with
  | nil => intro c; simp [playFrom]
  | cons m rest ih =>
    intro c
    have hstep : playFrom c (m :: rest) = playFrom (stepMove c m) rest := rfl
    rw [hstep, ih, stepMove_record]
    simp

/-- C7: the threefold-repetition draw is signalled in a game exactly when
the current position — piece placement plus side to move — occurs at least
three times among the positions of the game (reconstructed from the move
record); in the knight-shuffle game the second occurrence of the starting
position (ply 4) does not signal it and the third occurrence (ply 8)
does. -/
theorem threefold_repetition_rule :
    (∀ ms : List Mv,
      Endgame.THREEFOLD_REP ∈ EndgameReasons (playGame ms) ↔
        3 ≤ (replayPositions ms).count (posOf (playGame ms))) ∧
    Endgame.THREEFOLD_REP ∉ EndgameReasons (playGame knightShuffle) ∧
    Endgame.THREEFOLD_REP ∈ EndgameReasons (playGame (knightShuffle ++ knightShuffle)) := by
  refine ⟨fun ms => ?_, by decide, by decide⟩
  rw [threefold_mem_reasons]
  unfold ThreefoldRepetition
  have hrec : (playGame ms).allGameMoves.map Prod.snd = ms := by
    have := playFrom_record_moves ms initialChess
    simpa [playGame, initialChess] using this
  rw [hrec]
  simp [decide_eq_true_eq]

/-- C10: every public member of the `Chess` class is declared `noexcept`;
the only member declared `noexcept(false)`, `CheckCoordinates`, is
private — so a throw it performs inside a `noexcept` public caller such as
`GetPiece` cannot reach that caller as a catchable error: the modelled
outcome at an out-of-range coordinate is process termination. -/
theorem noexcept_interface :
    (∀ d ∈ chessMembers, d.isPublic = true → d.isNoexcept = true) ∧
    (∀ d ∈ chessMembers, d.isNoexcept = false →
      d.name = "CheckCoordinates" ∧ d.isPublic = false) ∧
    GetPieceOutcome initialChess 8 0 = .terminated := by
  refine ⟨by decide, by decide, ?_⟩
  unfold GetPieceOutcome
  rw [if_pos (by decide)]

/-- C9 (counter-evidence): `CheckCoordinates` does throw on an
out-of-range coordinate, but because `GetPiece` — like every public
entry point — is declared `noexcept`, the throw is never signalled to the
immediate caller as a recoverable error: for every state, the modelled
outcome of `GetPiece(8, 0)` is `std::terminate`, a fatal process error. -/
theorem invalid_coordinate_terminates :
    CheckCoordinatesThrows 8 0 = true ∧
    (∀ d ∈ chessMembers, d.name = "GetPiece" →
      d.isPublic = true ∧ d.isNoexcept = true) ∧
    ∀ c : Chess, GetPieceOutcome c 8 0 = CallOutcome.terminated := by
  refine ⟨by decide, by decide, fun c => ?_⟩
  unfold GetPieceOutcome
  rw [if_pos (by decide)]


/-- C5: from the standard starting position white has exactly 20 legal
moves, and the number of legal 2-ply sequences (perft at depth 2) is
exactly 400. -/
theorem perft_starting_position :
    (AllMoves initialChess).length = 20 ∧ perft initialChess 2 = 400 :=
  ⟨rfl, rfl⟩


/-! ## Search: state restoration, bounds, and fold lemmas -/

lemma ChangeTurn_ChangeTurn (c : Chess) : ChangeTurn (ChangeTurn c) = c := by
  unfold ChangeTurn
  rw [Bool.not_not]

lemma WF_MovePiece {c : Chess} (hWF : WF c) (m : Mv) (mp ur : Bool) :
    WF (MovePiece c m mp ur) := by
  unfold WF MovePiece
  dsimp only
  split
  · exact WFB_setSq (WFB_setSq hWF _ _ _) _ _ _
  · exact WFB_setSq (WFB_setSq hWF _ _ _) _ _ _
  · exact WFB_setSq (WFB_setSq (WFB_setSq hWF _ _ _) _ _ _) _ _ _
  · exact WFB_setSq (WFB_setSq (WFB_setSq (WFB_setSq hWF _ _ _) _ _ _) _ _ _) _ _ _

lemma WF_searchStep {c : Chess} (hWF : WF c) (m : Mv) : WF (searchStep c m) :=
  WF_MovePiece hWF m false false

lemma searchStep_restore {c : Chess} {m : Mv} (hWF : WF c) (hm : m ∈ AllMoves c) :
    MovePieceBack (ChangeTurn (searchStep c m)) m (undoInfo c m) = c := by
  unfold searchStep
  rw [ChangeTurn_ChangeTurn]
  exact MovePieceBack_MovePiece hWF (pseudoMoves_wf hWF (mem_AllMoves hm).1) false

lemma lengths_setSq (b : Board) (x y p : Int) :
    (setSq b x y p).map List.length = b.map List.length := by
  unfold setSq
  rw [List.map_set]
  by_cases hx : x.toNat < b.length
  · have h1 : b.getD x.toNat [] = b[x.toNat] := by
      simp [List.getD_eq_getElem?_getD, List.getElem?_eq_getElem hx]
    have hx' : x.toNat < (b.map List.length).length := by simpa using hx
    have h2 : (b.map List.length).getD x.toNat 0 = b[x.toNat].length := by
      rw [List.getD_eq_getElem?_getD, List.getElem?_map,
        List.getElem?_eq_getElem hx]
      rfl
    rw [List.length_set, h1, ← h2, set_getD_self hx']
  · rw [List.set_eq_of_length_le (by simpa using Nat.le_of_not_lt hx)]

lemma lengths_MovePiece (c : Chess) (m : Mv) (mp ur : Bool) :
    (MovePiece c m mp ur).board.map List.length = c.board.map List.length := by
  unfold MovePiece
  dsimp only
  split <;> simp only [lengths_setSq]

lemma lengths_searchStep (c : Chess) (m : Mv) :
    (searchStep c m).board.map List.length = c.board.map List.length :=
  lengths_MovePiece c m false false

lemma searchBound_searchStep (c : Chess) (m : Mv) :
    searchBound (searchStep c m) = searchBound c := by
  unfold searchBound
  rw [show (searchStep c m).board.map List.length = c.board.map List.length from
    lengths_searchStep c m]

lemma abs_EvaluatePiece (p : Int) : |EvaluatePiece p| ≤ KING_WEIGHT := by
  unfold EvaluatePiece KING_WEIGHT
  dsimp only
  split_ifs <;> decide

lemma abs_rowScore (r : List Int) : |rowScore r| ≤ KING_WEIGHT * (r.length : Int) := by
  unfold rowScore
  induction r with
  | nil => simp
  | cons a t ih =>
    simp only [List.map_cons, List.sum_cons, List.length_cons]
    have h1 := abs_EvaluatePiece a
    have h2 := abs_add (EvaluatePiece a) ((t.map EvaluatePiece).sum)
    unfold rowScore at ih
    push_cast
    have hK : (0:Int) < KING_WEIGHT := by unfold KING_WEIGHT; norm_num
    nlinarith [ih]

lemma abs_boardSum (b : Board) :
    |(b.map rowScore).sum| ≤ KING_WEIGHT * ((b.map List.length).sum : Int) := by
  induction b with
  | nil => simp
  | cons r t ih =>
    simp only [List.map_cons, List.sum_cons]
    have h1 := abs_rowScore r
    have h2 := abs_add (rowScore r) ((t.map rowScore).sum)
    push_cast
    push_cast at ih
    nlinarith [ih]

lemma abs_EvaluateBoard (c : Chess) (s : Bool) :
    |EvaluateBoard c s| ≤ KING_WEIGHT * ((c.board.map List.length).sum : Int) := by
  unfold EvaluateBoard
  cases s
  · rw [if_neg (by simp)]
    rw [neg_one_mul, abs_neg]
    exact abs_boardSum c.board
  · rw [if_pos rfl, one_mul]
    exact abs_boardSum c.board

lemma maxFold_nil (g : Mv → Int) (v : Int) : maxFold g v [] = v := rfl

lemma maxFold_cons (g : Mv → Int) (v : Int) (m : Mv) (ms : List Mv) :
    maxFold g v (m :: ms) = maxFold g (max v (g m)) ms := rfl

lemma minFold_nil (g : Mv → Int) (v : Int) : minFold g v [] = v := rfl

lemma minFold_cons (g : Mv → Int) (v : Int) (m : Mv) (ms : List Mv) :
    minFold g v (m :: ms) = minFold g (min v (g m)) ms := rfl

lemma le_maxFold_seed (g : Mv → Int) :
    ∀ (ms : List Mv) (v : Int), v ≤ maxFold g v ms := by
  intro ms
  induction ms with
  | nil => intro v; rw [maxFold_nil]
  | cons m t ih =>
    intro v
    rw [maxFold_cons]
    exact le_trans (le_max_left _ _) (ih (max v (g m)))

lemma le_maxFold_mem (g : Mv → Int) :
    ∀ (ms : List Mv) (v : Int) (m : Mv), m ∈ ms → g m ≤ maxFold g v ms := by
  intro ms
  induction ms with
  | nil => intro v m h; simp at h
  | cons m0 t ih =>
    intro v m h
    rw [maxFold_cons]
    rcases List.mem_cons.mp h with rfl | h'
    · exact le_trans (le_max_right _ _) (le_maxFold_seed g t _)
    · exact ih _ m h'

lemma maxFold_le (g : Mv → Int) {X : Int} :
    ∀ (ms : List Mv) (v : Int), v ≤ X → (∀ m ∈ ms, g m ≤ X) →
      maxFold g v ms ≤ X := by
  intro ms
  induction ms with
  | nil => intro v hv _; rw [maxFold_nil]; exact hv
  | cons m0 t ih =>
    intro v hv hall
    rw [maxFold_cons]
    refine ih _ (max_le hv (hall m0 (List.mem_cons_self _ _))) ?_
    intro m hm
    exact hall m (List.mem_cons_of_mem _ hm)

lemma maxFold_mem_or_seed (g : Mv → Int) :
    ∀ (ms : List Mv) (v : Int),
      maxFold g v ms = v ∨ ∃ m ∈ ms, maxFold g v ms = g m := by
  intro ms
  induction ms with
  | nil => intro v; exact Or.inl rfl
  | cons m0 t ih =>
    intro v
    rw [maxFold_cons]
    rcases ih (max v (g m0)) with h | ⟨m, hm, h⟩
    · rcases max_choice v (g m0) with h' | h'
      · exact Or.inl (h.trans h')
      · exact Or.inr ⟨m0, List.mem_cons_self _ _, h.trans h'⟩
    · exact Or.inr ⟨m, List.mem_cons_of_mem _ hm, h⟩

lemma minFold_le_seed (g : Mv → Int) :
    ∀ (ms : List Mv) (v : Int), minFold g v ms ≤ v := by
  intro ms
  induction ms with
  | nil => intro v; rw [minFold_nil]
  | cons m t ih =>
    intro v
    rw [minFold_cons]
    exact le_trans (ih (min v (g m))) (min_le_left _ _)

lemma minFold_le_mem (g : Mv → Int) :
    ∀ (ms : List Mv) (v : Int) (m : Mv), m ∈ ms → minFold g v ms ≤ g m := by
  intro ms
  induction ms with
  | nil => intro v m h; simp at h
  | cons m0 t ih =>
    intro v m h
    rw [minFold_cons]
    rcases List.mem_cons.mp h with rfl | h'
    · exact le_trans (minFold_le_seed g t _) (min_le_right _ _)
    · exact ih _ m h'

lemma le_minFold (g : Mv → Int) {X : Int} :
    ∀ (ms : List Mv) (v : Int), X ≤ v → (∀ m ∈ ms, X ≤ g m) →
      X ≤ minFold g v ms := by
  intro ms
  induction ms with
  | nil => intro v hv _; rw [minFold_nil]; exact hv
  | cons m0 t ih =>
    intro v hv hall
    rw [minFold_cons]
    refine ih _ (le_min hv (hall m0 (List.mem_cons_self _ _))) ?_
    intro m hm
    exact hall m (List.mem_cons_of_mem _ hm)

lemma minFold_mem_or_seed (g : Mv → Int) :
    ∀ (ms : List Mv) (v : Int),
      minFold g v ms = v ∨ ∃ m ∈ ms, minFold g v ms = g m := by
  intro ms
  induction ms with
  | nil => intro v; exact Or.inl rfl
  | cons m0 t ih =>
    intro v
    rw [minFold_cons]
    rcases ih (min v (g m0)) with h | ⟨m, hm, h⟩
    · rcases min_choice v (g m0) with h' | h'
      · exact Or.inl (h.trans h')
      · exact Or.inr ⟨m0, List.mem_cons_self _ _, h.trans h'⟩
    · exact Or.inr ⟨m, List.mem_cons_of_mem _ hm, h⟩

lemma abs_minimax (rootSide : Bool) :
    ∀ (d : Nat) (c : Chess), |minimax rootSide d c| ≤
      KING_WEIGHT * ((c.board.map List.length).sum : Int) := by
  intro d
  induction d with
  | zero => intro c; exact abs_EvaluateBoard c rootSide
  | succ d ih =>
    intro c
    have hcomp : ∀ m : Mv, |minimax rootSide d (searchStep c m)| ≤
        KING_WEIGHT * ((c.board.map List.length).sum : Int) := by
      intro m
      have := ih (searchStep c m)
      rwa [lengths_searchStep] at this
    show |minimax rootSide (d + 1) c| ≤ _
    rw [minimax]
    rcases hAM : AllMoves c with _ | ⟨m, rest⟩ <;> dsimp only
    · exact abs_EvaluateBoard c rootSide
    · split
      · rcases maxFold_mem_or_seed (fun m' => minimax rootSide d (searchStep c m'))
          rest (minimax rootSide d (searchStep c m)) with h | ⟨m', _, h⟩ <;>
          rw [h] <;> exact hcomp _
      · rcases minFold_mem_or_seed (fun m' => minimax rootSide d (searchStep c m'))
          rest (minimax rootSide d (searchStep c m)) with h | ⟨m', _, h⟩ <;>
          rw [h] <;> exact hcomp _


/-! ## Search: the alpha-beta window lemmas -/

lemma abLoop_max_spec (f : Chess → Int → Int → Int × Chess) (g : Chess → Int)
    (hf : ABSpec f g) :
    ∀ (ms : List Mv) (c : Chess) (α₀ β v : Int), WF c → α₀ < β →
      (∀ m ∈ ms, m ∈ AllMoves c) →
      (abLoop f true c ms (max α₀ v) β v).2 = c ∧
      (maxFold (fun m => g (searchStep c m)) v ms ≤ α₀ →
        (abLoop f true c ms (max α₀ v) β v).1 ≤ α₀) ∧
      (β ≤ maxFold (fun m => g (searchStep c m)) v ms →
        β ≤ (abLoop f true c ms (max α₀ v) β v).1) ∧
      (α₀ < maxFold (fun m => g (searchStep c m)) v ms →
        maxFold (fun m => g (searchStep c m)) v ms < β →
        (abLoop f true c ms (max α₀ v) β v).1 =
          maxFold (fun m => g (searchStep c m)) v ms) := by
  intro ms
  induction ms with
  | nil =>
    intro c α₀ β v hWF hαβ _
    exact ⟨rfl, fun h => h, fun h => h, fun _ _ => rfl⟩
  | cons m rest ih =>
    intro c α₀ β v hWF hαβ hall
    rw [abLoop, maxFold_cons]
    by_cases hpr : β ≤ max α₀ v
    · rw [if_pos hpr]
      have hβv : β ≤ v := by
        rcases max_choice α₀ v with h | h <;> rw [h] at hpr
        · omega
        · exact hpr
      have hvT := le_maxFold_seed (fun m' => g (searchStep c m')) rest
        (max v (g (searchStep c m)))
      have hvs : v ≤ max v (g (searchStep c m)) := le_max_left _ _
      refine ⟨rfl, ?_, ?_, ?_⟩
      · intro hT; omega
      · intro _; exact hβv
      · intro _ hT2; omega
    · rw [if_neg hpr]
      dsimp only
      have hA : max α₀ v < β := lt_of_not_le hpr
      have hmem : m ∈ AllMoves c := hall m (List.mem_cons_self _ _)
      obtain ⟨hres, hlow, hhigh, hexact⟩ :=
        hf (searchStep c m) (max α₀ v) β (WF_searchStep hWF m) hA
      have hc2 : MovePieceBack (ChangeTurn (f (searchStep c m) (max α₀ v) β).2) m
          (undoInfo c m) = c := by
        rw [hres]; exact searchStep_restore hWF hmem
      rw [hc2, max_assoc]
      obtain ⟨ihres, ih1, ih2, ih3⟩ := ih c α₀ β
        (max v (f (searchStep c m) (max α₀ v) β).1) hWF hαβ
        (fun m' hm' => hall m' (List.mem_cons_of_mem _ hm'))
      set gm := g (searchStep c m) with hgmdef
      set w1 := (f (searchStep c m) (max α₀ v) β).1 with hw1def
      set T := maxFold (fun m' => g (searchStep c m')) (max v gm) rest with hTdef
      set Ts := maxFold (fun m' => g (searchStep c m')) (max v w1) rest with hTsdef
      have hseedT : max v gm ≤ T := le_maxFold_seed _ _ _
      have hseedTs : max v w1 ≤ Ts := le_maxFold_seed _ _ _
      have hmemT : ∀ m' ∈ rest, g (searchStep c m') ≤ T := fun m' hm' =>
        le_maxFold_mem _ _ _ _ hm'
      have hmemTs : ∀ m' ∈ rest, g (searchStep c m') ≤ Ts := fun m' hm' =>
        le_maxFold_mem _ _ _ _ hm'
      have hvgm : v ≤ max v gm := le_max_left _ _
      have hgmv : gm ≤ max v gm := le_max_right _ _
      refine ⟨ihres, ?_, ?_, ?_⟩
      · -- fail low
        intro hT
        have hvα : v ≤ α₀ := by omega
        have hgα : gm ≤ α₀ := by omega
        have hmax : max α₀ v = α₀ := max_eq_left hvα
        have hw1α : w1 ≤ α₀ := by
          have := hlow (by rw [hmax]; exact hgα)
          rwa [hmax] at this
        refine ih1 (maxFold_le _ _ _ (max_le hvα hw1α) ?_)
        intro m' hm'
        exact (hmemT m' hm').trans hT
      · -- fail high
        intro hT
        rcases maxFold_mem_or_seed (fun m' => g (searchStep c m')) rest
            (max v gm) with hreal | ⟨m'', hm'', hreal⟩
        · rw [← hTdef] at hreal
          rw [hreal] at hT
          rcases le_max_iff.mp hT with hβv | hβgm
          · exfalso
            have : v ≤ max α₀ v := le_max_right _ _
            omega
          · have hw1β : β ≤ w1 := hhigh hβgm
            refine ih2 ?_
            have : w1 ≤ max v w1 := le_max_right _ _
            omega
        · rw [← hTdef] at hreal
          refine ih2 ?_
          have hreal' : T = g (searchStep c m'') := hreal
          have := hmemTs m'' hm''
          omega
      · -- exact window
        intro h1 h2
        have hgmβ : gm < β := by omega
        by_cases hgm : gm ≤ max α₀ v
        · have hw1 : w1 ≤ max α₀ v := hlow hgm
          have hTsT : Ts = T := by
            apply le_antisymm
            · refine maxFold_le _ _ _ (max_le (by omega) ?_) hmemT
              have : max α₀ v ≤ T := max_le (by omega) (by omega)
              omega
            · rcases maxFold_mem_or_seed (fun m' => g (searchStep c m')) rest
                  (max v gm) with hreal | ⟨m'', hm'', hreal⟩
              · rw [← hTdef] at hreal
                rcases max_choice v gm with h' | h'
                · rw [hreal, h']
                  omega
                · rcases max_choice α₀ v with h'' | h''
                  · exfalso
                    rw [h''] at hgm
                    rw [hreal, h'] at h1
                    omega
                  · rw [h''] at hgm
                    rw [hreal, h']
                    omega
              · rw [← hTdef] at hreal
                rw [hreal]
                exact hmemTs m'' hm''
          rw [hTsT] at ih3
          exact ih3 h1 h2
        · have hw1 : w1 = gm := hexact (lt_of_not_le hgm) hgmβ
          have hTsT : Ts = T := by rw [hTsdef, hTdef, hw1]
          rw [hTsT] at ih3
          exact ih3 h1 h2

lemma abLoop_min_spec (f : Chess → Int → Int → Int × Chess) (g : Chess → Int)
    (hf : ABSpec f g) :
    ∀ (ms : List Mv) (c : Chess) (α β₀ v : Int), WF c → α < β₀ →
      (∀ m ∈ ms, m ∈ AllMoves c) →
      (abLoop f false c ms α (min β₀ v) v).2 = c ∧
      (β₀ ≤ minFold (fun m => g (searchStep c m)) v ms →
        β₀ ≤ (abLoop f false c ms α (min β₀ v) v).1) ∧
      (minFold (fun m => g (searchStep c m)) v ms ≤ α →
        (abLoop f false c ms α (min β₀ v) v).1 ≤ α) ∧
      (α < minFold (fun m => g (searchStep c m)) v ms →
        minFold (fun m => g (searchStep c m)) v ms < β₀ →
        (abLoop f false c ms α (min β₀ v) v).1 =
          minFold (fun m => g (searchStep c m)) v ms) := by
  intro ms
  induction ms with
  | nil =>
    intro c α β₀ v hWF hαβ _
    exact ⟨rfl, fun h => h, fun h => h, fun _ _ => rfl⟩
  | cons m rest ih =>
    intro c α β₀ v hWF hαβ hall
    rw [abLoop, minFold_cons]
    by_cases hpr : min β₀ v ≤ α
    · rw [if_pos hpr]
      have hvα : v ≤ α := by
        rcases min_choice β₀ v with h | h <;> rw [h] at hpr
        · omega
        · exact hpr
      have hvT := minFold_le_seed (fun m' => g (searchStep c m')) rest
        (min v (g (searchStep c m)))
      have hvs : min v (g (searchStep c m)) ≤ v := min_le_left _ _
      refine ⟨rfl, ?_, ?_, ?_⟩
      · intro hT; omega
      · intro _; exact hvα
      · intro hT1 _; omega
    · rw [if_neg hpr]
      dsimp only
      have hA : α < min β₀ v := lt_of_not_le hpr
      have hmem : m ∈ AllMoves c := hall m (List.mem_cons_self _ _)
      obtain ⟨hres, hlow, hhigh, hexact⟩ :=
        hf (searchStep c m) α (min β₀ v) (WF_searchStep hWF m) hA
      have hc2 : MovePieceBack (ChangeTurn (f (searchStep c m) α (min β₀ v)).2) m
          (undoInfo c m) = c := by
        rw [hres]; exact searchStep_restore hWF hmem
      rw [hc2, min_assoc]
      obtain ⟨ihres, ih1, ih2, ih3⟩ := ih c α β₀
        (min v (f (searchStep c m) α (min β₀ v)).1) hWF hαβ
        (fun m' hm' => hall m' (List.mem_cons_of_mem _ hm'))
      set gm := g (searchStep c m) with hgmdef
      set w1 := (f (searchStep c m) α (min β₀ v)).1 with hw1def
      set T := minFold (fun m' => g (searchStep c m')) (min v gm) rest with hTdef
      set Ts := minFold (fun m' => g (searchStep c m')) (min v w1) rest with hTsdef
      have hseedT : T ≤ min v gm := minFold_le_seed _ _ _
      have hseedTs : Ts ≤ min v w1 := minFold_le_seed _ _ _
      have hmemT : ∀ m' ∈ rest, T ≤ g (searchStep c m') := fun m' hm' =>
        minFold_le_mem _ _ _ _ hm'
      have hmemTs : ∀ m' ∈ rest, Ts ≤ g (searchStep c m') := fun m' hm' =>
        minFold_le_mem _ _ _ _ hm'
      have hvgm : min v gm ≤ v := min_le_left _ _
      have hgmv : min v gm ≤ gm := min_le_right _ _
      refine ⟨ihres, ?_, ?_, ?_⟩
      · -- fail high
        intro hT
        have hvβ : β₀ ≤ v := by omega
        have hgβ : β₀ ≤ gm := by omega
        have hmin : min β₀ v = β₀ := min_eq_left hvβ
        have hw1β : β₀ ≤ w1 := by
          have := hhigh (by rw [hmin]; exact hgβ)
          rwa [hmin] at this
        refine ih1 (le_minFold _ _ _ (le_min hvβ hw1β) ?_)
        intro m' hm'
        exact hT.trans (hmemT m' hm')
      · -- fail low
        intro hT
        rcases minFold_mem_or_seed (fun m' => g (searchStep c m')) rest
            (min v gm) with hreal | ⟨m'', hm'', hreal⟩
        · rw [← hTdef] at hreal
          rw [hreal] at hT
          rcases min_le_iff.mp hT with hvα' | hgmα
          · exfalso
            have : min β₀ v ≤ v := min_le_right _ _
            omega
          · have hw1α : w1 ≤ α := hlow hgmα
            refine ih2 ?_
            have : min v w1 ≤ w1 := min_le_right _ _
            omega
        · rw [← hTdef] at hreal
          refine ih2 ?_
          have hreal' : T = g (searchStep c m'') := hreal
          have := hmemTs m'' hm''
          omega
      · -- exact window
        intro h1 h2
        have hgmα : α < gm := by omega
        by_cases hgm : min β₀ v ≤ gm
        · have hw1 : min β₀ v ≤ w1 := hhigh hgm
          have hTsT : Ts = T := by
            apply le_antisymm
            · rcases minFold_mem_or_seed (fun m' => g (searchStep c m')) rest
                  (min v gm) with hreal | ⟨m'', hm'', hreal⟩
              · rw [← hTdef] at hreal
                rcases min_choice v gm with h' | h'
                · rw [hreal, h']
                  omega
                · rcases min_choice β₀ v with h'' | h''
                  · exfalso
                    rw [h''] at hgm
                    rw [hreal, h'] at h2
                    omega
                  · rw [h''] at hgm
                    rw [hreal, h']
                    omega
              · rw [← hTdef] at hreal
                rw [hreal]
                exact hmemTs m'' hm''
            · refine le_minFold _ _ _ (le_min (by omega) ?_) hmemT
              have : T ≤ min β₀ v := le_min (by omega) (by omega)
              omega
          rw [hTsT] at ih3
          exact ih3 h1 h2
        · have hw1 : w1 = gm := hexact hgmα (lt_of_not_le hgm)
          have hTsT : Ts = T := by rw [hTsdef, hTdef, hw1]
          rw [hTsT] at ih3
          exact ih3 h1 h2


/-- The pruned search meets its window specification against full
minimax, at every depth. -/
lemma AlphaBeta_spec (rootSide : Bool) :
    ∀ d : Nat, ABSpec (AlphaBeta rootSide d) (minimax rootSide d) := by
  intro d
  induction d with
  | zero =>
    intro c α β hWF hαβ
    exact ⟨rfl, fun h => h, fun h => h, fun _ _ => rfl⟩
  | succ d ih =>
    intro c α β hWF hαβ
    rw [AlphaBeta, minimax]
    rcases hAM : AllMoves c with _ | ⟨m, rest⟩
    · exact ⟨rfl, fun h => h, fun h => h, fun _ _ => rfl⟩
    · dsimp only
      have hm : m ∈ AllMoves c := by rw [hAM]; exact List.mem_cons_self _ _
      have hrest : ∀ m' ∈ rest, m' ∈ AllMoves c := fun m' hm' => by
        rw [hAM]; exact List.mem_cons_of_mem _ hm'
      obtain ⟨hres, hlow, hhigh, hexact⟩ :=
        ih (searchStep c m) α β (WF_searchStep hWF m) hαβ
      have hc2 : MovePieceBack
          (ChangeTurn (AlphaBeta rootSide d (searchStep c m) α β).2) m
          (undoInfo c m) = c := by
        rw [hres]; exact searchStep_restore hWF hm
      rw [hc2]
      by_cases hmx : c.whitesTurn = rootSide
      · rw [if_pos hmx, if_pos hmx]
        obtain ⟨Lres, L1, L2, L3⟩ := abLoop_max_spec (AlphaBeta rootSide d)
          (minimax rootSide d) ih rest c α β
          (AlphaBeta rootSide d (searchStep c m) α β).1 hWF hαβ hrest
        set gm := minimax rootSide d (searchStep c m) with hgmdef
        set w1 := (AlphaBeta rootSide d (searchStep c m) α β).1 with hw1def
        set M := maxFold (fun m' => minimax rootSide d (searchStep c m')) gm rest
          with hMdef
        set T := maxFold (fun m' => minimax rootSide d (searchStep c m')) w1 rest
          with hTdef
        have hgmM : gm ≤ M := le_maxFold_seed _ _ _
        have hw1T : w1 ≤ T := le_maxFold_seed _ _ _
        have hmemM : ∀ m' ∈ rest, minimax rootSide d (searchStep c m') ≤ M :=
          fun m' hm' => le_maxFold_mem _ _ _ _ hm'
        have hmemT : ∀ m' ∈ rest, minimax rootSide d (searchStep c m') ≤ T :=
          fun m' hm' => le_maxFold_mem _ _ _ _ hm'
        refine ⟨Lres, ?_, ?_, ?_⟩
        · intro hM
          have hw1α : w1 ≤ α := hlow (by omega)
          refine L1 (maxFold_le _ _ _ hw1α ?_)
          intro m' hm'
          exact (hmemM m' hm').trans hM
        · intro hM
          rcases maxFold_mem_or_seed
              (fun m' => minimax rootSide d (searchStep c m')) rest gm with
            hreal | ⟨m'', hm'', hreal⟩
          · rw [← hMdef] at hreal
            have hβw1 : β ≤ w1 := hhigh (by omega)
            refine L2 ?_
            omega
          · rw [← hMdef] at hreal
            have hreal' : M = minimax rootSide d (searchStep c m'') := hreal
            have := hmemT m'' hm''
            refine L2 ?_
            omega
        · intro h1 h2
          by_cases hgma : gm ≤ α
          · have hw1α : w1 ≤ α := hlow hgma
            have hTM : T = M := by
              apply le_antisymm
              · refine maxFold_le _ _ _ (by omega) hmemM
              · rcases maxFold_mem_or_seed
                    (fun m' => minimax rootSide d (searchStep c m')) rest gm with
                  hreal | ⟨m'', hm'', hreal⟩
                · rw [← hMdef] at hreal
                  omega
                · rw [← hMdef] at hreal
                  rw [hreal]
                  exact hmemT m'' hm''
            rw [hTM] at L3
            exact L3 h1 h2
          · have hw1 : w1 = gm := hexact (lt_of_not_le hgma) (by omega)
            have hTM : T = M := by rw [hTdef, hMdef, hw1]
            rw [hTM] at L3
            exact L3 h1 h2
      · rw [if_neg hmx, if_neg hmx]
        obtain ⟨Lres, L1, L2, L3⟩ := abLoop_min_spec (AlphaBeta rootSide d)
          (minimax rootSide d) ih rest c α β
          (AlphaBeta rootSide d (searchStep c m) α β).1 hWF hαβ hrest
        set gm := minimax rootSide d (searchStep c m) with hgmdef
        set w1 := (AlphaBeta rootSide d (searchStep c m) α β).1 with hw1def
        set M := minFold (fun m' => minimax rootSide d (searchStep c m')) gm rest
          with hMdef
        set T := minFold (fun m' => minimax rootSide d (searchStep c m')) w1 rest
          with hTdef
        have hgmM : M ≤ gm := minFold_le_seed _ _ _
        have hw1T : T ≤ w1 := minFold_le_seed _ _ _
        have hmemM : ∀ m' ∈ rest, M ≤ minimax rootSide d (searchStep c m') :=
          fun m' hm' => minFold_le_mem _ _ _ _ hm'
        have hmemT : ∀ m' ∈ rest, T ≤ minimax rootSide d (searchStep c m') :=
          fun m' hm' => minFold_le_mem _ _ _ _ hm'
        refine ⟨Lres, ?_, ?_, ?_⟩
        · intro hM
          rcases minFold_mem_or_seed
              (fun m' => minimax rootSide d (searchStep c m')) rest gm with
            hreal | ⟨m'', hm'', hreal⟩
          · rw [← hMdef] at hreal
            have hw1α : w1 ≤ α := hlow (by omega)
            refine L2 ?_
            omega
          · rw [← hMdef] at hreal
            have hreal' : M = minimax rootSide d (searchStep c m'') := hreal
            have := hmemT m'' hm''
            refine L2 ?_
            omega
        · intro hM
          have hβw1 : β ≤ w1 := hhigh (by omega)
          refine L1 (le_minFold _ _ _ hβw1 ?_)
          intro m' hm'
          exact hM.trans (hmemM m' hm')
        · intro h1 h2
          by_cases hgmb : β ≤ gm
          · have hβw1 : β ≤ w1 := hhigh hgmb
            have hTM : T = M := by
              apply le_antisymm
              · rcases minFold_mem_or_seed
                    (fun m' => minimax rootSide d (searchStep c m')) rest gm with
                  hreal | ⟨m'', hm'', hreal⟩
                · rw [← hMdef] at hreal
                  omega
                · rw [← hMdef] at hreal
                  rw [hreal]
                  exact hmemT m'' hm''
              · refine le_minFold _ _ _ (by omega) hmemM
            rw [hTM] at L3
            exact L3 h1 h2
          · have hw1 : w1 = gm := hexact (by omega) (lt_of_not_le hgmb)
            have hTM : T = M := by rw [hTdef, hMdef, hw1]
            rw [hTM] at L3
            exact L3 h1 h2

/-- The root loop of the pruned search keeps, move by move, exactly the
running best pair the unpruned minimax fold keeps, and restores the
working state. -/
lemma abRootLoop_spec (rootSide : Bool) (d : Nat) (B : Int) :
    ∀ (ms : List Mv) (c : Chess) (best : Mv × Int), WF c →
      (∀ m ∈ ms, m ∈ AllMoves c) →
      -B < best.2 → best.2 < B →
      (∀ m ∈ ms, -B < minimax rootSide d (searchStep c m) ∧
        minimax rootSide d (searchStep c m) < B) →
      abRootLoop rootSide d B c ms best.2 best =
        ((ms.foldl (fun b m' =>
          if b.2 < minimax rootSide d (searchStep c m')
          then (m', minimax rootSide d (searchStep c m')) else b) best), c) := by
  intro ms
  induction ms with
  | nil => intro c best hWF _ _ _ _; rfl
  | cons m rest ih =>
    intro c best hWF hall hlB huB hbound
    rw [abRootLoop]
    have hm := hall m (List.mem_cons_self _ _)
    obtain ⟨hgml, hgmu⟩ := hbound m (List.mem_cons_self _ _)
    obtain ⟨hres, hlow, hhigh, hexact⟩ :=
      AlphaBeta_spec rootSide d (searchStep c m) best.2 B (WF_searchStep hWF m) huB
    have hc2 : MovePieceBack
        (ChangeTurn (AlphaBeta rootSide d (searchStep c m) best.2 B).2) m
        (undoInfo c m) = c := by
      rw [hres]; exact searchStep_restore hWF hm
    rw [hc2, List.foldl_cons]
    have hall' : ∀ m' ∈ rest, m' ∈ AllMoves c := fun m' hm' =>
      hall m' (List.mem_cons_of_mem _ hm')
    have hbound' : ∀ m' ∈ rest, -B < minimax rootSide d (searchStep c m') ∧
        minimax rootSide d (searchStep c m') < B := fun m' hm' =>
      hbound m' (List.mem_cons_of_mem _ hm')
    by_cases hcmp : best.2 < minimax rootSide d (searchStep c m)
    · have hw1 : (AlphaBeta rootSide d (searchStep c m) best.2 B).1 =
          minimax rootSide d (searchStep c m) := hexact hcmp hgmu
      rw [hw1, if_pos hcmp, max_eq_right (le_of_lt hcmp)]
      exact ih c (m, minimax rootSide d (searchStep c m)) hWF hall' hgml hgmu hbound'
    · have hw1le : (AlphaBeta rootSide d (searchStep c m) best.2 B).1 ≤ best.2 :=
        hlow (le_of_not_lt hcmp)
      rw [if_neg (not_lt.mpr hw1le), if_neg hcmp,
        max_eq_left hw1le]
      exact ih c best hWF hall' hlB huB hbound'

lemma searchBound_window (c : Chess) (m : Mv) (rootSide : Bool) (d : Nat) :
    -searchBound c < minimax rootSide d (searchStep c m) ∧
      minimax rootSide d (searchStep c m) < searchBound c := by
  have h := abs_minimax rootSide d (searchStep c m)
  rw [lengths_searchStep] at h
  rw [abs_le] at h
  unfold KING_WEIGHT at h
  unfold searchBound KING_WEIGHT
  constructor <;> omega

/-- The pruned root search returns exactly the unpruned minimax root move,
and leaves the working state exactly as it found it. -/
lemma AlphaBetaRoot_spec (c : Chess) (difficulty : Nat) (hWF : WF c) :
    AlphaBetaRoot c difficulty = (minimaxRootMove c difficulty, c) := by
  unfold AlphaBetaRoot minimaxRootMove
  rcases hAM : AllMoves c with _ | ⟨m, rest⟩
  · rfl
  · dsimp only
    have hm : m ∈ AllMoves c := by rw [hAM]; exact List.mem_cons_self _ _
    have hrest : ∀ m' ∈ rest, m' ∈ AllMoves c := fun m' hm' => by
      rw [hAM]; exact List.mem_cons_of_mem _ hm'
    obtain ⟨hgml, hgmu⟩ :=
      searchBound_window c m c.whitesTurn (difficulty - 1)
    have hBB : -searchBound c < searchBound c := by
      have := searchBound_window c m c.whitesTurn (difficulty - 1)
      omega
    obtain ⟨hres, hlow, hhigh, hexact⟩ :=
      AlphaBeta_spec c.whitesTurn (difficulty - 1) (searchStep c m)
        (-searchBound c) (searchBound c) (WF_searchStep hWF m) hBB
    have hc2 : MovePieceBack
        (ChangeTurn (AlphaBeta c.whitesTurn (difficulty - 1) (searchStep c m)
          (-searchBound c) (searchBound c)).2) m
        (undoInfo c m) = c := by
      rw [hres]; exact searchStep_restore hWF hm
    rw [hc2]
    have hw1 : (AlphaBeta c.whitesTurn (difficulty - 1) (searchStep c m)
        (-searchBound c) (searchBound c)).1 =
        minimax c.whitesTurn (difficulty - 1) (searchStep c m) :=
      hexact hgml hgmu
    rw [hw1, max_eq_right (le_of_lt hgml)]
    rw [abRootLoop_spec c.whitesTurn (difficulty - 1) (searchBound c) rest c
      (m, minimax c.whitesTurn (difficulty - 1) (searchStep c m)) hWF hrest
      hgml hgmu (fun m' _ => searchBound_window c m' c.whitesTurn (difficulty - 1))]

/-- C3: the move returned by the pruned alpha-beta root search equals the
move a full unpruned minimax of the same depth over the same legal moves
returns, with the same first-seen tie-break, for every well-formed
position and every depth. -/
theorem alphabeta_equals_minimax (c : Chess) (difficulty : Nat) (hWF : WF c) :
    (AlphaBetaRoot c difficulty).1 = minimaxRootMove c difficulty := by
  rw [AlphaBetaRoot_spec c difficulty hWF]

/-- Witness for C3: pruned and unpruned search agree at the starting
position for a difficulty-2 search. -/
theorem alphabeta_equals_minimax_witness :
    WF initialChess ∧
    (AlphaBetaRoot initialChess 2).1 = minimaxRootMove initialChess 2 :=
  ⟨by decide, alphabeta_equals_minimax initialChess 2 (by decide)⟩

/-- C8: the search is side-effect-free from the caller's perspective: for
every well-formed position and depth, the `Chess` state `GetIdealMove`
leaves behind — board, castling flags, turn flag, move record and
half-move clock — is exactly the state it was given, every explored move
having been reverted by `MovePieceBack`, pruned or not. -/
theorem search_restores_state (c : Chess) (difficulty : Nat) (hWF : WF c) :
    (GetIdealMove c difficulty).2 = c := by
  unfold GetIdealMove
  rw [AlphaBetaRoot_spec c difficulty hWF]

/-- Witness for C8: the state after a difficulty-2 search from the
starting position is the starting state. -/
theorem search_restores_state_witness :
    WF initialChess ∧ (GetIdealMove initialChess 2).2 = initialChess :=
  ⟨by decide, search_restores_state initialChess 2 (by decide)⟩


/-- Witness for C10: the public member `GetPiece` is in the table and is
`noexcept`. -/
theorem noexcept_interface_witness :
    (⟨"GetPiece", true, true⟩ : MemberDecl) ∈ chessMembers ∧
    (⟨"GetPiece", true, true⟩ : MemberDecl).isNoexcept = true :=
  ⟨by decide, noexcept_interface.1 ⟨"GetPiece", true, true⟩ (by decide) rfl⟩

/-- Witness for C9: the interface facts applied at `GetPiece`, and the
terminating outcome at the out-of-range coordinate (8, 0). -/
theorem invalid_coordinate_terminates_witness :
    (⟨"GetPiece", true, true⟩ : MemberDecl) ∈ chessMembers ∧
    ((⟨"GetPiece", true, true⟩ : MemberDecl).isPublic = true ∧
     (⟨"GetPiece", true, true⟩ : MemberDecl).isNoexcept = true) ∧
    GetPieceOutcome initialChess 8 0 = CallOutcome.terminated :=
  ⟨by decide,
   invalid_coordinate_terminates.2.1 ⟨"GetPiece", true, true⟩ (by decide) rfl,
   invalid_coordinate_terminates.2.2 initialChess⟩

end ChessBot
